import Mathlib

/-!
Shallow embedding of `src/pyslam/tracking/track_manager.py` (class
`TrackManager`) and proofs about it.

Modelling conventions:
* Track ids are Python ints, embedded as `Int` (the sentinel `-1` is used by
  the source, so id lists are lists of `Int`); `next_track_id` only ever
  holds non-negative values (initialised to `0`, only incremented), so it is
  a `Nat` and is cast to `Int` when an id is issued.
* Keypoint coordinates are floats in the source, but the module only moves
  them around (`float(kp[0])` is a cast of data that is never computed with),
  so a position is embedded as an opaque pair of integers.
* The Python dict `self.tracks` preserves insertion order; it is embedded as
  an association list: setting an existing key updates it in place, setting
  a fresh key appends, exactly as CPython dicts behave.
* Python list subscripts accept negative indices that address from the back;
  an index past either end raises `IndexError`.  `pyGet`/`pySet` embed this,
  and `update` returns `none` when the source would raise.
* `float(np.mean(...))` etc. are embedded exactly over `ℚ`.  `np.std` is the
  square root of the population variance, which is irrational in general and
  has no exact rational embedding; the `std_track_length` field therefore
  carries the population variance (`np.std` squared).  Both are `0` exactly
  on the same inputs, and the only branch any claim exercises is the
  `if ages else 0.0` empty branch, which the source returns before doing any
  arithmetic.
-/

/-- A keypoint position: opaque payload, never computed with. -/
abbrev Pos := Int × Int

/-- One value of the per-track info dict built by `_create_track`. -/
structure Track where
  age : Nat
  first_frame : Int
  last_frame : Int
  positions : List Pos
  is_active : Bool
deriving DecidableEq, Repr

/-- `self.tracks`: insertion-ordered dict from track id to track info. -/
abbrev TrackDict := List (Int × Track)

/-- Dict lookup (`self.tracks[k]` / `k in self.tracks`). -/
def dictGet : TrackDict → Int → Option Track
  | [], _ => none
  | (k, v) :: rest, k' => if k = k' then some v else dictGet rest k'

/-- Dict store: update in place if the key exists, else append (CPython
dict semantics). -/
def dictSet : TrackDict → Int → Track → TrackDict
  | [], k, v => [(k, v)]
  | (k', v') :: rest, k, v =>
    if k' = k then (k, v) :: rest else (k', v') :: dictSet rest k v

/-- Python list subscript read `xs[i]`: non-negative indices address from
the front, negative ones from the back, out of range is `IndexError`
(`none`). -/
def pyGet (xs : List α) (i : Int) : Option α :=
  if 0 ≤ i then xs.get? i.toNat
  else if 0 ≤ i + xs.length then xs.get? (i + xs.length).toNat
  else none

/-- Python list subscript write `xs[i] = v`, same index semantics as
`pyGet`. -/
def pySet (xs : List α) (i : Int) (v : α) : Option (List α) :=
  if 0 ≤ i then
    if i < xs.length then some (xs.set i.toNat v) else none
  else if 0 ≤ i + xs.length then some (xs.set (i + xs.length).toNat v)
  else none

/-- The state of a `TrackManager` (`__init__`). -/
structure TrackManager where
  tracks : TrackDict
  next_track_id : Nat
  current_frame : Int
  active_track_ids : List Int
  ref_track_ids : List Int
deriving DecidableEq, Repr

/-- A freshly constructed `TrackManager()`. -/
def initTM : TrackManager :=
  { tracks := [], next_track_id := 0, current_frame := -1,
    active_track_ids := [], ref_track_ids := [] }

/-- `_create_track`, projected onto the two fields it touches
(`self.tracks`, `self.next_track_id`); returns the new dict, the new
counter and the issued id. -/
def createTrack (tracks : TrackDict) (nextId : Nat) (kp : Pos) (fid : Int) :
    TrackDict × Nat × Int :=
  (dictSet tracks ((nextId : Nat) : Int)
     { age := 1, first_frame := fid, last_frame := fid,
       positions := [kp], is_active := true },
   nextId + 1, ((nextId : Nat) : Int))

/-- The loop of `_initialize_tracks`: create one track per keypoint,
collecting the issued ids in order. -/
def initTracksLoop (fid : Int) : TrackDict → Nat → List Pos → TrackDict × Nat × List Int
  | tracks, nextId, [] => (tracks, nextId, [])
  | tracks, nextId, kp :: rest =>
    let c := createTrack tracks nextId kp fid
    let r := initTracksLoop fid c.1 c.2.1 rest
    (r.1, r.2.1, c.2.2 :: r.2.2)

/-- `_initialize_tracks`: every keypoint becomes a new track and the issued
ids become both `ref_track_ids` and `active_track_ids`. -/
def initTracks (st : TrackManager) (kps : List Pos) (fid : Int) : TrackManager :=
  let r := initTracksLoop fid st.tracks st.next_track_id kps
  { st with tracks := r.1, next_track_id := r.2.1,
            ref_track_ids := r.2.2, active_track_ids := r.2.2 }

/-- The disjunction of the two early `if`s in `update` that route to
`_initialize_tracks`: correspondences absent (`None`) or empty, or no
reference ids from the previous frame. -/
def bootstrapCond (st : TrackManager) (idxsRef idxsCur : Option (List Int)) : Bool :=
  idxsRef.isNone || idxsCur.isNone || st.ref_track_ids.isEmpty
    || (idxsRef.getD []).isEmpty || (idxsCur.getD []).isEmpty

/-- One iteration of the correspondence loop in `update`.  The source
checks only `idx_ref < len(ref)` and `idx_cur < len(kps)` before
subscripting, so negative indices pass the check and wrap (or raise, when
below `-len`).  `none` is an uncaught `IndexError`. -/
def processPair (refIds : List Int) (kps : List Pos) (fid : Int)
    (tracks : TrackDict) (naIds : List Int) (pr : Int × Int) :
    Option (TrackDict × List Int) :=
  if pr.1 < (refIds.length : Int) ∧ pr.2 < (kps.length : Int) then
    match pyGet refIds pr.1 with
    | none => none
    | some trackId =>
      match pySet naIds pr.2 trackId with
      | none => none
      | some naIds1 =>
        match dictGet tracks trackId with
        | none => some (tracks, naIds1)
        | some t =>
          match pyGet kps pr.2 with
          | none => none
          | some kp =>
            some (dictSet tracks trackId
              { t with age := t.age + 1, last_frame := fid,
                       positions := t.positions ++ [kp] }, naIds1)
  else some (tracks, naIds)

/-- The correspondence loop of `update` over `zip(idxs_ref, idxs_cur)`. -/
def processPairs (refIds : List Int) (kps : List Pos) (fid : Int) :
    TrackDict → List Int → List (Int × Int) → Option (TrackDict × List Int)
  | tracks, naIds, [] => some (tracks, naIds)
  | tracks, naIds, pr :: rest =>
    match processPair refIds kps fid tracks naIds pr with
    | none => none
    | some r => processPairs refIds kps fid r.1 r.2 rest

/-- The second loop of `update`: every slot still holding the `-1`
sentinel becomes a brand-new track; returns the new dict, counter and the
fully assigned id list. -/
def assignNewLoop (fid : Int) : TrackDict → Nat → List (Int × Pos) → TrackDict × Nat × List Int
  | tracks, nextId, [] => (tracks, nextId, [])
  | tracks, nextId, (tid, kp) :: rest =>
    if tid = -1 then
      let c := createTrack tracks nextId kp fid
      let r := assignNewLoop fid c.1 c.2.1 rest
      (r.1, r.2.1, c.2.2 :: r.2.2)
    else
      let r := assignNewLoop fid tracks nextId rest
      (r.1, r.2.1, tid :: r.2.2)

/-- Retirement (`lost_track_ids = set(ref) - set(new)` and the loop that
sets `is_active = False`).  The source iterates over the set difference;
iterating over the raw reference list instead is state-equivalent because
setting `is_active` to `False` is idempotent and order-independent. -/
def retireLost (newIds : List Int) : TrackDict → List Int → TrackDict
  | tracks, [] => tracks
  | tracks, tid :: rest =>
    if tid ∈ newIds then retireLost newIds tracks rest
    else
      match dictGet tracks tid with
      | none => retireLost newIds tracks rest
      | some t =>
        if tid = -1 then retireLost newIds tracks rest
        else retireLost newIds (dictSet tracks tid { t with is_active := false }) rest

/-- `TrackManager.update`.  `none` models an uncaught `IndexError` from a
correspondence index below `-len`. -/
def update (st : TrackManager) (idxsRef idxsCur : Option (List Int))
    (kpsCur : List Pos) (frameId : Int) : Option TrackManager :=
  let st1 : TrackManager := { st with current_frame := frameId }
  if kpsCur.isEmpty then some st1
  else if bootstrapCond st1 idxsRef idxsCur then some (initTracks st1 kpsCur frameId)
  else
    match processPairs st1.ref_track_ids kpsCur frameId st1.tracks
        (List.replicate kpsCur.length (-1 : Int))
        (List.zip (idxsRef.getD []) (idxsCur.getD [])) with
    | none => none
    | some r =>
      let a := assignNewLoop frameId r.1 st1.next_track_id (r.2.zip kpsCur)
      some { st1 with
              tracks := retireLost a.2.2 a.1 st1.ref_track_ids,
              next_track_id := a.2.1,
              ref_track_ids := a.2.2,
              active_track_ids := a.2.2.filter (fun tid => tid != -1) }

/-- `get_track_ages`: ages of all tracks, dict insertion order. -/
def getTrackAges (st : TrackManager) : List Nat :=
  st.tracks.map (fun kt => kt.2.age)

/-- `get_active_track_ages`: ages of tracks listed in
`active_track_ids` that exist in the dict. -/
def getActiveTrackAges (st : TrackManager) : List Nat :=
  st.active_track_ids.filterMap (fun tid => (dictGet st.tracks tid).map (fun t => t.age))

/-- `np.mean` over the ages, exact. -/
def ratMean (xs : List Nat) : ℚ :=
  ((xs.map (fun a => (a : ℚ))).sum) / xs.length

/-- `np.median` over the ages, exact: sort, take the middle element (odd
length) or the mean of the two middle elements (even length). -/
def npMedian (xs : List Nat) : ℚ :=
  let s := List.insertionSort (fun a b => a ≤ b) xs
  if s.length % 2 = 1 then ((s.get? (s.length / 2)).getD 0 : Nat)
  else (((s.get? (s.length / 2 - 1)).getD 0 : ℚ) + ((s.get? (s.length / 2)).getD 0 : Nat)) / 2

/-- The population variance, i.e. `np.std(ages) ** 2`, exact.  (`np.std`
itself is its square root; see the module comment.) -/
def npVariance (xs : List Nat) : ℚ :=
  ((xs.map (fun a => ((a : ℚ) - ratMean xs) ^ 2)).sum) / xs.length

/-- Maximum of a list, only used on non-empty input (`np.max`). -/
def natListMax : List Nat → Nat
  | [] => 0
  | a :: rest => rest.foldl Nat.max a

/-- Minimum of a list, only used on non-empty input (`np.min`). -/
def natListMin : List Nat → Nat
  | [] => 0
  | a :: rest => rest.foldl Nat.min a

/-- The dict returned by `get_track_statistics`. -/
structure TrackStats where
  total_tracks : Nat
  active_tracks : Nat
  mean_track_length : ℚ
  median_track_length : ℚ
  /-- population variance; `np.std` is its square root (see module comment) -/
  std_track_length : ℚ
  max_track_length : Nat
  min_track_length : Nat
  mean_active_track_length : ℚ
deriving DecidableEq, Repr

/-- `get_track_statistics`: each field guarded by `if ages else 0` exactly
as in the source. -/
def getTrackStatistics (st : TrackManager) : TrackStats :=
  let ages := getTrackAges st
  let activeAges := getActiveTrackAges st
  { total_tracks := st.tracks.length,
    active_tracks := st.active_track_ids.length,
    mean_track_length := if ages.isEmpty then 0 else ratMean ages,
    median_track_length := if ages.isEmpty then 0 else npMedian ages,
    std_track_length := if ages.isEmpty then 0 else npVariance ages,
    max_track_length := if ages.isEmpty then 0 else natListMax ages,
    min_track_length := if ages.isEmpty then 0 else natListMin ages,
    mean_active_track_length := if activeAges.isEmpty then 0 else ratMean activeAges }

/-- One entry of the `tracks` mapping built by `export_tracks`. -/
structure ExportTrack where
  age : Nat
  first_frame : Int
  last_frame : Int
  num_observations : Nat
  is_active : Bool
deriving DecidableEq, Repr

/-- The document built by `export_tracks`. -/
structure ExportData where
  tracks : List (String × ExportTrack)
  statistics : TrackStats
  total_frames : Int
deriving DecidableEq, Repr

/-- `export_tracks`.  The method reads state and assigns to no attribute;
the embedding returns the state alongside the document so that
read-only-ness is part of the statement, not an artefact of the
embedding. -/
def exportTracks (st : TrackManager) : ExportData × TrackManager :=
  ({ tracks := st.tracks.map (fun kt =>
       (toString kt.1,
        { age := kt.2.age, first_frame := kt.2.first_frame,
          last_frame := kt.2.last_frame,
          num_observations := kt.2.positions.length,
          is_active := kt.2.is_active })),
     statistics := getTrackStatistics st,
     total_frames := st.current_frame + 1 }, st)

/-- One call to `update`, for stating multi-call properties. -/
structure Call where
  idxsRef : Option (List Int)
  idxsCur : Option (List Int)
  kpsCur : List Pos
  frameId : Int

/-- Run a sequence of `update` calls; `none` once any call raises. -/
def runCalls : TrackManager → List Call → Option TrackManager
  | st, [] => some st
  | st, c :: rest =>
    match update st c.idxsRef c.idxsCur c.kpsCur c.frameId with
    | none => none
    | some st1 => runCalls st1 rest

/-- `is_active` of an optional lookup result (`False` when absent). -/
def optActive : Option Track → Bool
  | some t => t.is_active
  | none => false

/-- The id keys `0, 1, ..., n - 1` as integers, in order. -/
def idKeys (n : Nat) : List Int :=
  (List.range n).map (fun i : Nat => (i : Int))

/-- The state invariant maintained by every `TrackManager` method:
the dict keys are exactly `0, 1, ..., next_track_id - 1` in insertion
order (ids issued from `0`, strictly increasing, none skipped or reused);
every track's `age` equals the length of its `positions`; every id in
`ref_track_ids` belongs to a currently active track; and
`active_track_ids` is the sentinel-free filtering of `ref_track_ids`. -/
abbrev TMInv (st : TrackManager) : Prop :=
  st.tracks.map Prod.fst = idKeys st.next_track_id
  ∧ (∀ kt ∈ st.tracks, kt.2.age = kt.2.positions.length)
  ∧ (∀ tid ∈ st.ref_track_ids, optActive (dictGet st.tracks tid) = true)
  ∧ st.active_track_ids = st.ref_track_ids.filter (fun tid => tid != -1)

instance (st : TrackManager) : Decidable (TMInv st) := by
  unfold TMInv; infer_instance

/-- States reachable from a fresh `TrackManager()` by successful `update`
calls. -/
inductive Reachable : TrackManager → Prop where
  | init : Reachable initTM
  | step {s s1 : TrackManager} {iR iC : Option (List Int)} {kps : List Pos} {fid : Int} :
      Reachable s → update s iR iC kps fid = some s1 → Reachable s1

/-- What the spec's bootstrap case prescribes for a call on `kps`: every
detection becomes a brand-new track with `age = 1`, `is_active`,
`first_frame = last_frame = fid`; the new ids (consecutive from the old
counter) become `ref_track_ids` and `active_track_ids` in detection order;
and every pre-existing track record is left untouched (in particular no
previously active track is retired). -/
abbrev bootstrapEffect (st st' : TrackManager) (kps : List Pos) (fid : Int) : Prop :=
  st'.next_track_id = st.next_track_id + kps.length
  ∧ st'.ref_track_ids
      = (List.range kps.length).map (fun i : Nat => ((st.next_track_id + i : Nat) : Int))
  ∧ st'.active_track_ids = st'.ref_track_ids
  ∧ (∀ i kp, kps.get? i = some kp →
      dictGet st'.tracks ((st.next_track_id + i : Nat) : Int)
        = some { age := 1, first_frame := fid, last_frame := fid,
                 positions := [kp], is_active := true })
  ∧ (∀ k ∈ st.tracks.map Prod.fst, dictGet st'.tracks k = dictGet st.tracks k)
  ∧ st'.current_frame = fid

/-- A sample state: the result of bootstrapping two detections on a fresh
manager. -/
def sampleTM2 : TrackManager :=
  { tracks := [(0, ⟨1, 0, 0, [(0, 0)], true⟩), (1, ⟨1, 0, 0, [(1, 1)], true⟩)],
    next_track_id := 2, current_frame := 0,
    active_track_ids := [0, 1], ref_track_ids := [0, 1] }

/-- The state reached from `sampleTM2` by a call with empty
correspondences: the bootstrap path runs again, both old tracks drop out
of the reference list, yet both stay `is_active`. -/
def sampleBootAgain : TrackManager :=
  { tracks := [(0, ⟨1, 0, 0, [(0, 0)], true⟩), (1, ⟨1, 0, 0, [(1, 1)], true⟩),
               (2, ⟨1, 1, 1, [(9, 9)], true⟩)],
    next_track_id := 3, current_frame := 1,
    active_track_ids := [2], ref_track_ids := [2] }

/-- A sample state in which track `1` has been retired (track `0`
continued, track `1` lost). -/
def sampleRetired : TrackManager :=
  { tracks := [(0, ⟨2, 0, 1, [(0, 0), (9, 9)], true⟩),
               (1, ⟨1, 0, 0, [(1, 1)], false⟩)],
    next_track_id := 2, current_frame := 1,
    active_track_ids := [0], ref_track_ids := [0] }

/-- A sample state realising the spec's continuation example: eight tracks
issued so far, the previous frame's two detections aligned with ids
`[5, 7]`. -/
def sampleTM8 : TrackManager :=
  { tracks := [(0, ⟨1, 0, 0, [(0, 0)], false⟩), (1, ⟨1, 0, 0, [(1, 1)], false⟩),
               (2, ⟨1, 0, 0, [(2, 2)], false⟩), (3, ⟨1, 0, 0, [(3, 3)], false⟩),
               (4, ⟨1, 0, 0, [(4, 4)], false⟩), (5, ⟨1, 9, 9, [(5, 5)], true⟩),
               (6, ⟨1, 0, 0, [(6, 6)], false⟩), (7, ⟨1, 9, 9, [(7, 7)], true⟩)],
    next_track_id := 8, current_frame := 9,
    active_track_ids := [5, 7], ref_track_ids := [5, 7] }

/-! ### Association-list dict lemmas -/

theorem dictGet_set_self (d : TrackDict) (k : Int) (v : Track) :
    dictGet (dictSet d k v) k = some v := by
  induction d with
  | nil => simp [dictGet, dictSet]
  | cons kv rest ih =>
    by_cases h : kv.1 = k
    · simp [dictSet, dictGet, h]
    · simp [dictSet, dictGet, h, ih]

theorem dictGet_set_ne (d : TrackDict) (k j : Int) (v : Track) (h : k ≠ j) :
    dictGet (dictSet d k v) j = dictGet d j := by
  induction d with
  | nil => simp [dictGet, dictSet, h]
  | cons kv rest ih =>
    by_cases hk : kv.1 = k
    · simp [dictSet, dictGet, hk, h]
    · simp [dictSet, dictGet, hk, ih]

theorem mem_keys_of_dictGet {d : TrackDict} {k : Int} {t : Track}
    (h : dictGet d k = some t) : k ∈ d.map Prod.fst := by
  induction d with
  | nil => simp [dictGet] at h
  | cons kv rest ih =>
    by_cases hk : kv.1 = k
    · simp [hk]
    · simp [dictGet, hk] at h
      simp [ih h]

theorem dictGet_mem {d : TrackDict} {k : Int} {t : Track}
    (h : dictGet d k = some t) : (k, t) ∈ d := by
  induction d with
  | nil => simp [dictGet] at h
  | cons kv rest ih =>
    by_cases hk : kv.1 = k
    · simp [dictGet, hk] at h
      subst hk; rw [← h]
      exact List.mem_cons_self _ _
    · simp [dictGet, hk] at h
      exact List.mem_cons_of_mem _ (ih h)

theorem dictGet_isSome_of_mem {d : TrackDict} {k : Int}
    (h : k ∈ d.map Prod.fst) : (dictGet d k).isSome := by
  induction d with
  | nil => simp at h
  | cons kv rest ih =>
    by_cases hk : kv.1 = k
    · simp [dictGet, hk]
    · simp [hk] at h
      rcases h with h | h
      · exact absurd h (fun hh => hk hh.symm)
      · simpa [dictGet, hk] using ih (by simpa using h)

theorem dictGet_none_of_not_mem {d : TrackDict} {k : Int}
    (h : k ∉ d.map Prod.fst) : dictGet d k = none := by
  cases hg : dictGet d k with
  | none => rfl
  | some t => exact absurd (mem_keys_of_dictGet hg) h

theorem dictSet_keys_of_mem {d : TrackDict} {k : Int} (v : Track)
    (h : k ∈ d.map Prod.fst) :
    (dictSet d k v).map Prod.fst = d.map Prod.fst := by
  induction d with
  | nil => simp at h
  | cons kv rest ih =>
    by_cases hk : kv.1 = k
    · simp [dictSet, hk]
    · simp [hk] at h
      rcases h with h | h
      · exact absurd h (fun hh => hk hh.symm)
      · simp [dictSet, hk, ih (by simpa using h)]

theorem dictSet_keys_of_not_mem {d : TrackDict} {k : Int} (v : Track)
    (h : k ∉ d.map Prod.fst) :
    (dictSet d k v).map Prod.fst = d.map Prod.fst ++ [k] := by
  induction d with
  | nil => simp [dictSet]
  | cons kv rest ih =>
    simp at h
    have hk : kv.1 ≠ k := fun hh => h.1 hh.symm
    simp [dictSet, hk, ih (by simp [h.2])]

theorem mem_dictSet {d : TrackDict} {k : Int} {v : Track} {kt : Int × Track}
    (h : kt ∈ dictSet d k v) : kt ∈ d ∨ kt = (k, v) := by
  induction d with
  | nil => simp [dictSet] at h; simp [h]
  | cons kv rest ih =>
    by_cases hk : kv.1 = k
    · simp [dictSet, hk] at h
      rcases h with h | h
      · exact Or.inr (by simp [h])
      · exact Or.inl (List.mem_cons_of_mem _ h)
    · simp [dictSet, hk] at h
      rcases h with h | h
      · exact Or.inl (by simp [h])
      · rcases ih h with h | h
        · exact Or.inl (List.mem_cons_of_mem _ h)
        · exact Or.inr h

/-! ### Python subscript lemmas -/

theorem pyGet_nonneg {xs : List α} {i : Int} (h : 0 ≤ i) :
    pyGet xs i = xs.get? i.toNat := by
  simp [pyGet, h]

theorem pyGet_nat (xs : List α) (n : Nat) :
    pyGet xs (n : Int) = xs.get? n := by
  simp [pyGet, Int.toNat_ofNat]

theorem pyGet_mem {xs : List α} {i : Int} {a : α} (h : pyGet xs i = some a) :
    a ∈ xs := by
  unfold pyGet at h
  split at h
  · exact List.get?_mem h
  · split at h
    · exact List.get?_mem h
    · exact absurd h (by simp)

theorem pySet_eq_some {xs : List α} {i : Int} {v : α} {ys : List α}
    (h : pySet xs i v = some ys) :
    ∃ n : Nat, n < xs.length ∧ ys = xs.set n v := by
  unfold pySet at h
  split at h
  · split at h
    · rename_i h0 h1
      exact ⟨i.toNat, by omega, by simpa using h.symm⟩
    · exact absurd h (by simp)
  · split at h
    · rename_i h0 h1
      refine ⟨(i + xs.length).toNat, by omega, by simpa using h.symm⟩
    · exact absurd h (by simp)

theorem pySet_nat {xs : List α} {n : Nat} (v : α) (h : n < xs.length) :
    pySet xs (n : Int) v = some (xs.set n v) := by
  simp [pySet, h]

theorem length_set_of_pySet {xs : List α} {i : Int} {v : α} {ys : List α}
    (h : pySet xs i v = some ys) : ys.length = xs.length := by
  obtain ⟨n, _, rfl⟩ := pySet_eq_some h
  simp

theorem mem_of_pySet {xs : List α} {i : Int} {v : α} {ys : List α}
    (h : pySet xs i v = some ys) : ∀ a ∈ ys, a ∈ xs ∨ a = v := by
  obtain ⟨n, _, rfl⟩ := pySet_eq_some h
  intro a ha
  exact List.mem_or_eq_of_mem_set ha

/-! ### Key-range helpers -/

theorem idKeys_succ (n : Nat) : idKeys (n + 1) = idKeys n ++ [(n : Int)] := by
  unfold idKeys
  rw [List.range_succ, List.map_append]
  rfl

theorem mem_idKeys {n : Nat} {k : Int} : k ∈ idKeys n ↔ 0 ≤ k ∧ k < (n : Int) := by
  unfold idKeys
  simp only [List.mem_map, List.mem_range]
  constructor
  · rintro ⟨i, hi, rfl⟩
    exact ⟨Int.natCast_nonneg i, by exact_mod_cast hi⟩
  · rintro ⟨h0, h1⟩
    exact ⟨k.toNat, by omega, by omega⟩

theorem length_idKeys (n : Nat) : (idKeys n).length = n := by
  simp [idKeys]

theorem cast_not_mem_idKeys {n m : Nat} (h : n ≤ m) : ((m : Nat) : Int) ∉ idKeys n := by
  rw [mem_idKeys]
  omega

theorem mem_range_keys {d : TrackDict} {n : Nat} {k : Int}
    (hkeys : d.map Prod.fst = idKeys n)
    (hk : k ∈ d.map Prod.fst) : 0 ≤ k ∧ k < (n : Int) := by
  rw [hkeys, mem_idKeys] at hk
  exact hk

/-! ### Lemmas about the `_initialize_tracks` loop -/

theorem itl_next (fid : Int) (kps : List Pos) : ∀ (d : TrackDict) (n : Nat),
    (initTracksLoop fid d n kps).2.1 = n + kps.length := by
  induction kps with
  | nil => intro d n; simp [initTracksLoop]
  | cons kp rest ih =>
    intro d n
    simp only [initTracksLoop, createTrack]
    rw [ih]
    simp only [List.length_cons]
    omega

theorem itl_ids (fid : Int) (kps : List Pos) : ∀ (d : TrackDict) (n : Nat),
    (initTracksLoop fid d n kps).2.2
      = (List.range kps.length).map (fun i => ((n + i : Nat) : Int)) := by
  induction kps with
  | nil => intro d n; simp [initTracksLoop]
  | cons kp rest ih =>
    intro d n
    simp only [initTracksLoop, createTrack]
    rw [ih]
    simp only [List.length_cons]
    rw [List.range_succ_eq_map, List.map_cons, List.map_map]
    refine congrArg₂ _ (by simp) (List.map_congr_left fun i _ => ?_)
    simp only [Function.comp]
    congr 1
    omega

theorem itl_keys (fid : Int) (kps : List Pos) : ∀ (d : TrackDict) (n : Nat),
    d.map Prod.fst = idKeys n →
    (initTracksLoop fid d n kps).1.map Prod.fst = idKeys (n + kps.length) := by
  induction kps with
  | nil => intro d n h; simpa [initTracksLoop] using h
  | cons kp rest ih =>
    intro d n h
    simp only [initTracksLoop, createTrack]
    have hfresh : ((n : Nat) : Int) ∉ d.map Prod.fst := by
      rw [h]; exact cast_not_mem_idKeys le_rfl
    have hkeys1 : (dictSet d ((n : Nat) : Int)
        { age := 1, first_frame := fid, last_frame := fid,
          positions := [kp], is_active := true }).map Prod.fst
        = idKeys (n + 1) := by
      rw [dictSet_keys_of_not_mem _ hfresh, h, idKeys_succ]
    rw [ih _ _ hkeys1]
    simp only [List.length_cons]
    congr 1
    omega

theorem itl_get_old (fid : Int) (kps : List Pos) : ∀ (d : TrackDict) (n : Nat) (k : Int),
    k < (n : Int) →
    dictGet (initTracksLoop fid d n kps).1 k = dictGet d k := by
  induction kps with
  | nil => intro d n k _; simp [initTracksLoop]
  | cons kp rest ih =>
    intro d n k hk
    simp only [initTracksLoop, createTrack]
    rw [ih _ (n + 1) k (by push_cast; omega)]
    exact dictGet_set_ne _ _ _ _ (by omega)

theorem itl_get_new (fid : Int) (kps : List Pos) : ∀ (d : TrackDict) (n : Nat)
    (i : Nat) (kp : Pos), kps.get? i = some kp →
    dictGet (initTracksLoop fid d n kps).1 ((n + i : Nat) : Int)
      = some { age := 1, first_frame := fid, last_frame := fid,
               positions := [kp], is_active := true } := by
  induction kps with
  | nil => intro d n i kp h; simp at h
  | cons kp0 rest ih =>
    intro d n i kp h
    cases i with
    | zero =>
      simp at h
      subst h
      simp only [initTracksLoop, createTrack, Nat.add_zero]
      rw [itl_get_old fid rest _ (n + 1) _ (by push_cast; omega)]
      exact dictGet_set_self _ _ _
    | succ i =>
      simp only [List.get?_cons_succ] at h
      simp only [initTracksLoop, createTrack]
      have := ih (dictSet d ((n : Nat) : Int)
        { age := 1, first_frame := fid, last_frame := fid,
          positions := [kp0], is_active := true }) (n + 1) i kp h
      rw [show n + (i + 1) = (n + 1) + i by omega]
      exact this

theorem itl_ages (fid : Int) (kps : List Pos) : ∀ (d : TrackDict) (n : Nat),
    (∀ kt ∈ d, kt.2.age = kt.2.positions.length) →
    ∀ kt ∈ (initTracksLoop fid d n kps).1, kt.2.age = kt.2.positions.length := by
  induction kps with
  | nil => intro d n h; simpa [initTracksLoop] using h
  | cons kp rest ih =>
    intro d n h
    simp only [initTracksLoop, createTrack]
    refine ih _ (n + 1) ?_
    intro kt hkt
    rcases mem_dictSet hkt with hm | hm
    · exact h kt hm
    · subst hm; rfl

theorem itl_active_new (fid : Int) (kps : List Pos) (d : TrackDict) (n : Nat) :
    ∀ x ∈ (initTracksLoop fid d n kps).2.2,
      optActive (dictGet (initTracksLoop fid d n kps).1 x) = true := by
  intro x hx
  rw [itl_ids] at hx
  simp only [List.mem_map, List.mem_range] at hx
  obtain ⟨i, hi, rfl⟩ := hx
  have hkp : kps.get? i = some (kps.get ⟨i, hi⟩) := List.get?_eq_get hi
  rw [itl_get_new fid kps d n i _ hkp]
  rfl

theorem itl_ids_nonneg (fid : Int) (kps : List Pos) (d : TrackDict) (n : Nat) :
    ∀ x ∈ (initTracksLoop fid d n kps).2.2, 0 ≤ x := by
  intro x hx
  rw [itl_ids] at hx
  simp only [List.mem_map, List.mem_range] at hx
  obtain ⟨i, _, rfl⟩ := hx
  exact Int.natCast_nonneg _

/-! ### Lemmas about the correspondence loop -/

theorem processPair_inv {refIds : List Int} {kps : List Pos} {fid : Int}
    {tracks : TrackDict} {naIds : List Int} {pr : Int × Int} {s : TrackDict × List Int}
    (h : processPair refIds kps fid tracks naIds pr = some s) :
    s = (tracks, naIds) ∨
    ∃ tid naIds1, pyGet refIds pr.1 = some tid ∧ pySet naIds pr.2 tid = some naIds1
      ∧ s.2 = naIds1
      ∧ (s.1 = tracks ∨ ∃ t kp, dictGet tracks tid = some t ∧ pyGet kps pr.2 = some kp
          ∧ s.1 = dictSet tracks tid
              { t with age := t.age + 1, last_frame := fid,
                       positions := t.positions ++ [kp] }) := by
  unfold processPair at h
  split at h
  · split at h
    · exact absurd h (by simp)
    · rename_i tid hg
      split at h
      · exact absurd h (by simp)
      · rename_i naIds1 hs
        split at h
        · rename_i hd
          refine Or.inr ⟨tid, naIds1, hg, hs, ?_, Or.inl ?_⟩
          · cases h; rfl
          · cases h; rfl
        · rename_i t hd
          split at h
          · exact absurd h (by simp)
          · rename_i kp hk
            refine Or.inr ⟨tid, naIds1, hg, hs, ?_, Or.inr ⟨t, kp, hd, hk, ?_⟩⟩
            · cases h; rfl
            · cases h; rfl
  · exact Or.inl (by cases h; rfl)

theorem pp1_keys {refIds : List Int} {kps : List Pos} {fid : Int}
    {tracks : TrackDict} {naIds : List Int} {pr : Int × Int} {s : TrackDict × List Int}
    (h : processPair refIds kps fid tracks naIds pr = some s) :
    s.1.map Prod.fst = tracks.map Prod.fst := by
  rcases processPair_inv h with rfl | ⟨tid, naIds1, _, _, _, hs | ⟨t, kp, hd, _, hs⟩⟩
  · rfl
  · rw [hs]
  · rw [hs]; exact dictSet_keys_of_mem _ (mem_keys_of_dictGet hd)

theorem pp1_len {refIds : List Int} {kps : List Pos} {fid : Int}
    {tracks : TrackDict} {naIds : List Int} {pr : Int × Int} {s : TrackDict × List Int}
    (h : processPair refIds kps fid tracks naIds pr = some s) :
    s.2.length = naIds.length := by
  rcases processPair_inv h with rfl | ⟨tid, naIds1, _, hset, hna, _⟩
  · rfl
  · rw [hna]; exact length_set_of_pySet hset

theorem pp1_active {refIds : List Int} {kps : List Pos} {fid : Int}
    {tracks : TrackDict} {naIds : List Int} {pr : Int × Int} {s : TrackDict × List Int}
    (h : processPair refIds kps fid tracks naIds pr = some s) (k : Int) :
    (dictGet s.1 k).map Track.is_active = (dictGet tracks k).map Track.is_active := by
  rcases processPair_inv h with rfl | ⟨tid, naIds1, _, _, _, hs | ⟨t, kp, hd, _, hs⟩⟩
  · rfl
  · rw [hs]
  · rw [hs]
    by_cases hk : tid = k
    · subst hk
      rw [dictGet_set_self, hd]
      rfl
    · rw [dictGet_set_ne _ _ _ _ hk]

theorem pp1_ages {refIds : List Int} {kps : List Pos} {fid : Int}
    {tracks : TrackDict} {naIds : List Int} {pr : Int × Int} {s : TrackDict × List Int}
    (h : processPair refIds kps fid tracks naIds pr = some s)
    (hages : ∀ kt ∈ tracks, kt.2.age = kt.2.positions.length) :
    ∀ kt ∈ s.1, kt.2.age = kt.2.positions.length := by
  rcases processPair_inv h with rfl | ⟨tid, naIds1, _, _, _, hs | ⟨t, kp, hd, _, hs⟩⟩
  · exact hages
  · rw [hs]; exact hages
  · rw [hs]
    intro kt hkt
    rcases mem_dictSet hkt with hm | hm
    · exact hages kt hm
    · subst hm
      have := hages (tid, t) (dictGet_mem hd)
      simp at this ⊢
      omega

theorem pp1_untouched {refIds : List Int} {kps : List Pos} {fid : Int}
    {tracks : TrackDict} {naIds : List Int} {pr : Int × Int} {s : TrackDict × List Int}
    (h : processPair refIds kps fid tracks naIds pr = some s)
    {k : Int} (hk : k ∉ refIds) :
    dictGet s.1 k = dictGet tracks k := by
  rcases processPair_inv h with rfl | ⟨tid, naIds1, hg, _, _, hs | ⟨t, kp, hd, _, hs⟩⟩
  · rfl
  · rw [hs]
  · rw [hs]
    exact dictGet_set_ne _ _ _ _ (fun hEq => hk (hEq ▸ pyGet_mem hg))

theorem pp1_na {refIds : List Int} {kps : List Pos} {fid : Int}
    {tracks : TrackDict} {naIds : List Int} {pr : Int × Int} {s : TrackDict × List Int}
    (h : processPair refIds kps fid tracks naIds pr = some s) :
    ∀ x ∈ s.2, x ∈ naIds ∨ x ∈ refIds := by
  rcases processPair_inv h with rfl | ⟨tid, naIds1, hg, hset, hna, _⟩
  · intro x hx; exact Or.inl hx
  · intro x hx
    rw [hna] at hx
    rcases mem_of_pySet hset x hx with hm | hm
    · exact Or.inl hm
    · exact Or.inr (hm ▸ pyGet_mem hg)

theorem pp_keys {refIds : List Int} {kps : List Pos} {fid : Int} :
    ∀ {pairs : List (Int × Int)} {tracks : TrackDict} {naIds : List Int}
      {r : TrackDict × List Int},
    processPairs refIds kps fid tracks naIds pairs = some r →
    r.1.map Prod.fst = tracks.map Prod.fst := by
  intro pairs
  induction pairs with
  | nil =>
    intro tracks naIds r h
    simp only [processPairs, Option.some.injEq] at h
    rw [← h]
  | cons pr rest ih =>
    intro tracks naIds r h
    simp only [processPairs] at h
    cases hp : processPair refIds kps fid tracks naIds pr with
    | none => rw [hp] at h; exact absurd h (by simp)
    | some s =>
      rw [hp] at h
      rw [ih h, pp1_keys hp]

theorem pp_len {refIds : List Int} {kps : List Pos} {fid : Int} :
    ∀ {pairs : List (Int × Int)} {tracks : TrackDict} {naIds : List Int}
      {r : TrackDict × List Int},
    processPairs refIds kps fid tracks naIds pairs = some r →
    r.2.length = naIds.length := by
  intro pairs
  induction pairs with
  | nil =>
    intro tracks naIds r h
    simp only [processPairs, Option.some.injEq] at h
    rw [← h]
  | cons pr rest ih =>
    intro tracks naIds r h
    simp only [processPairs] at h
    cases hp : processPair refIds kps fid tracks naIds pr with
    | none => rw [hp] at h; exact absurd h (by simp)
    | some s =>
      rw [hp] at h
      rw [ih h, pp1_len hp]

theorem pp_active {refIds : List Int} {kps : List Pos} {fid : Int} :
    ∀ {pairs : List (Int × Int)} {tracks : TrackDict} {naIds : List Int}
      {r : TrackDict × List Int},
    processPairs refIds kps fid tracks naIds pairs = some r →
    ∀ k, (dictGet r.1 k).map Track.is_active = (dictGet tracks k).map Track.is_active := by
  intro pairs
  induction pairs with
  | nil =>
    intro tracks naIds r h k
    simp only [processPairs, Option.some.injEq] at h
    rw [← h]
  | cons pr rest ih =>
    intro tracks naIds r h k
    simp only [processPairs] at h
    cases hp : processPair refIds kps fid tracks naIds pr with
    | none => rw [hp] at h; exact absurd h (by simp)
    | some s =>
      rw [hp] at h
      rw [ih h k, pp1_active hp k]

theorem pp_ages {refIds : List Int} {kps : List Pos} {fid : Int} :
    ∀ {pairs : List (Int × Int)} {tracks : TrackDict} {naIds : List Int}
      {r : TrackDict × List Int},
    processPairs refIds kps fid tracks naIds pairs = some r →
    (∀ kt ∈ tracks, kt.2.age = kt.2.positions.length) →
    ∀ kt ∈ r.1, kt.2.age = kt.2.positions.length := by
  intro pairs
  induction pairs with
  | nil =>
    intro tracks naIds r h hages
    simp only [processPairs, Option.some.injEq] at h
    rw [← h]
    exact hages
  | cons pr rest ih =>
    intro tracks naIds r h hages
    simp only [processPairs] at h
    cases hp : processPair refIds kps fid tracks naIds pr with
    | none => rw [hp] at h; exact absurd h (by simp)
    | some s =>
      rw [hp] at h
      exact ih h (pp1_ages hp hages)

theorem pp_untouched {refIds : List Int} {kps : List Pos} {fid : Int} :
    ∀ {pairs : List (Int × Int)} {tracks : TrackDict} {naIds : List Int}
      {r : TrackDict × List Int},
    processPairs refIds kps fid tracks naIds pairs = some r →
    ∀ {k : Int}, k ∉ refIds → dictGet r.1 k = dictGet tracks k := by
  intro pairs
  induction pairs with
  | nil =>
    intro tracks naIds r h k hk
    simp only [processPairs, Option.some.injEq] at h
    rw [← h]
  | cons pr rest ih =>
    intro tracks naIds r h k hk
    simp only [processPairs] at h
    cases hp : processPair refIds kps fid tracks naIds pr with
    | none => rw [hp] at h; exact absurd h (by simp)
    | some s =>
      rw [hp] at h
      rw [ih h hk, pp1_untouched hp hk]

theorem pp_na {refIds : List Int} {kps : List Pos} {fid : Int} :
    ∀ {pairs : List (Int × Int)} {tracks : TrackDict} {naIds : List Int}
      {r : TrackDict × List Int},
    processPairs refIds kps fid tracks naIds pairs = some r →
    ∀ x ∈ r.2, x ∈ naIds ∨ x ∈ refIds := by
  intro pairs
  induction pairs with
  | nil =>
    intro tracks naIds r h x hx
    simp only [processPairs, Option.some.injEq] at h
    rw [← h] at hx
    exact Or.inl hx
  | cons pr rest ih =>
    intro tracks naIds r h x hx
    simp only [processPairs] at h
    cases hp : processPair refIds kps fid tracks naIds pr with
    | none => rw [hp] at h; exact absurd h (by simp)
    | some s =>
      rw [hp] at h
      rcases ih h x hx with hm | hm
      · exact pp1_na hp x hm
      · exact Or.inr hm

/-! ### Lemmas about the new-track assignment loop -/

theorem anl_cons_sentinel (fid : Int) (d : TrackDict) (n : Nat) (kp : Pos)
    (rest : List (Int × Pos)) :
    assignNewLoop fid d n (((-1 : Int), kp) :: rest)
      = ((assignNewLoop fid (createTrack d n kp fid).1 (n + 1) rest).1,
         (assignNewLoop fid (createTrack d n kp fid).1 (n + 1) rest).2.1,
         ((n : Nat) : Int)
           :: (assignNewLoop fid (createTrack d n kp fid).1 (n + 1) rest).2.2) := by
  simp [assignNewLoop, createTrack]

theorem anl_cons_real {tid : Int} (ht : tid ≠ -1) (fid : Int) (d : TrackDict) (n : Nat)
    (kp : Pos) (rest : List (Int × Pos)) :
    assignNewLoop fid d n ((tid, kp) :: rest)
      = ((assignNewLoop fid d n rest).1, (assignNewLoop fid d n rest).2.1,
         tid :: (assignNewLoop fid d n rest).2.2) := by
  simp [assignNewLoop, ht]

theorem anl_next (fid : Int) : ∀ (l : List (Int × Pos)) (d : TrackDict) (n : Nat),
    (assignNewLoop fid d n l).2.1 = n + l.countP (fun pr => pr.1 == -1) := by
  intro l
  induction l with
  | nil => intro d n; simp [assignNewLoop]
  | cons pr rest ih =>
    intro d n
    obtain ⟨tid, kp⟩ := pr
    by_cases ht : tid = -1
    · subst ht
      rw [anl_cons_sentinel]
      simp only [ih, List.countP_cons]
      simp
      omega
    · rw [anl_cons_real ht]
      simp only [ih, List.countP_cons]
      simp [ht]

theorem anl_len (fid : Int) : ∀ (l : List (Int × Pos)) (d : TrackDict) (n : Nat),
    (assignNewLoop fid d n l).2.2.length = l.length := by
  intro l
  induction l with
  | nil => intro d n; simp [assignNewLoop]
  | cons pr rest ih =>
    intro d n
    obtain ⟨tid, kp⟩ := pr
    by_cases ht : tid = -1
    · subst ht
      rw [anl_cons_sentinel]
      simp [ih]
    · rw [anl_cons_real ht]
      simp [ih]

theorem anl_keys (fid : Int) : ∀ (l : List (Int × Pos)) (d : TrackDict) (n : Nat),
    d.map Prod.fst = idKeys n →
    (assignNewLoop fid d n l).1.map Prod.fst = idKeys (assignNewLoop fid d n l).2.1 := by
  intro l
  induction l with
  | nil => intro d n h; simpa [assignNewLoop] using h
  | cons pr rest ih =>
    intro d n h
    obtain ⟨tid, kp⟩ := pr
    by_cases ht : tid = -1
    · subst ht
      rw [anl_cons_sentinel]
      refine ih _ (n + 1) ?_
      have hfresh : ((n : Nat) : Int) ∉ d.map Prod.fst := by
        rw [h]; exact cast_not_mem_idKeys le_rfl
      simp only [createTrack]
      rw [dictSet_keys_of_not_mem _ hfresh, h, idKeys_succ]
    · rw [anl_cons_real ht]
      exact ih d n h

theorem anl_get_old (fid : Int) : ∀ (l : List (Int × Pos)) (d : TrackDict) (n : Nat)
    (k : Int), k < (n : Int) →
    dictGet (assignNewLoop fid d n l).1 k = dictGet d k := by
  intro l
  induction l with
  | nil => intro d n k _; simp [assignNewLoop]
  | cons pr rest ih =>
    intro d n k hk
    obtain ⟨tid, kp⟩ := pr
    by_cases ht : tid = -1
    · subst ht
      rw [anl_cons_sentinel]
      rw [ih _ (n + 1) k (by push_cast; omega)]
      simp only [createTrack]
      exact dictGet_set_ne _ _ _ _ (by omega)
    · rw [anl_cons_real ht]
      exact ih d n k hk

theorem anl_next_mono (fid : Int) (l : List (Int × Pos)) (d : TrackDict) (n : Nat) :
    n ≤ (assignNewLoop fid d n l).2.1 := by
  rw [anl_next]
  omega

theorem anl_ids_get (fid : Int) : ∀ (l : List (Int × Pos)) (d : TrackDict) (n : Nat)
    (i : Nat) (tid : Int) (kp : Pos),
    l.get? i = some (tid, kp) → tid ≠ -1 →
    (assignNewLoop fid d n l).2.2.get? i = some tid := by
  intro l
  induction l with
  | nil => intro d n i tid kp h _; simp at h
  | cons pr rest ih =>
    intro d n i tid kp h ht
    obtain ⟨tid0, kp0⟩ := pr
    cases i with
    | zero =>
      simp at h
      obtain ⟨rfl, rfl⟩ := h
      rw [anl_cons_real ht]
      rfl
    | succ i =>
      simp only [List.get?_cons_succ] at h
      by_cases ht0 : tid0 = -1
      · subst ht0
        rw [anl_cons_sentinel]
        exact ih _ (n + 1) i tid kp h ht
      · rw [anl_cons_real ht0]
        exact ih d n i tid kp h ht

theorem anl_mem_ids (fid : Int) : ∀ (l : List (Int × Pos)) (d : TrackDict) (n : Nat),
    ∀ x ∈ (assignNewLoop fid d n l).2.2,
      (x ∈ l.map Prod.fst ∧ x ≠ -1)
      ∨ ((n : Int) ≤ x ∧ x < ((assignNewLoop fid d n l).2.1 : Int)) := by
  intro l
  induction l with
  | nil => intro d n x hx; simp [assignNewLoop] at hx
  | cons pr rest ih =>
    intro d n x hx
    obtain ⟨tid, kp⟩ := pr
    by_cases ht : tid = -1
    · subst ht
      rw [anl_cons_sentinel] at hx ⊢
      rcases List.mem_cons.mp hx with rfl | hx
      · refine Or.inr ⟨le_rfl, ?_⟩
        have := anl_next_mono fid rest (createTrack d n kp fid).1 (n + 1)
        push_cast
        omega
      · rcases ih _ (n + 1) x hx with ⟨hm, hne⟩ | ⟨h1, h2⟩
        · exact Or.inl ⟨List.mem_cons_of_mem _ hm, hne⟩
        · refine Or.inr ⟨by push_cast at h1 ⊢; omega, h2⟩
    · rw [anl_cons_real ht] at hx ⊢
      rcases List.mem_cons.mp hx with rfl | hx
      · exact Or.inl ⟨List.mem_cons_self _ _, ht⟩
      · rcases ih d n x hx with ⟨hm, hne⟩ | ⟨h1, h2⟩
        · exact Or.inl ⟨List.mem_cons_of_mem _ hm, hne⟩
        · exact Or.inr ⟨h1, h2⟩

theorem anl_active (fid : Int) : ∀ (l : List (Int × Pos)) (d : TrackDict) (n : Nat),
    (∀ tid ∈ l.map Prod.fst, tid ≠ -1 → optActive (dictGet d tid) = true) →
    d.map Prod.fst = idKeys n →
    ∀ x ∈ (assignNewLoop fid d n l).2.2,
      optActive (dictGet (assignNewLoop fid d n l).1 x) = true := by
  intro l
  induction l with
  | nil => intro d n _ _ x hx; simp [assignNewLoop] at hx
  | cons pr rest ih =>
    intro d n hact hkeys x hx
    obtain ⟨tid, kp⟩ := pr
    by_cases ht : tid = -1
    · subst ht
      rw [anl_cons_sentinel] at hx ⊢
      have hfresh : ((n : Nat) : Int) ∉ d.map Prod.fst := by
        rw [hkeys]; exact cast_not_mem_idKeys le_rfl
      have hkeys1 : (createTrack d n kp fid).1.map Prod.fst = idKeys (n + 1) := by
        simp only [createTrack]
        rw [dictSet_keys_of_not_mem _ hfresh, hkeys, idKeys_succ]
      have hact1 : ∀ tid1 ∈ rest.map Prod.fst, tid1 ≠ -1 →
          optActive (dictGet (createTrack d n kp fid).1 tid1) = true := by
        intro tid1 hm hne
        have hold := hact tid1 (by simp [hm]) hne
        have hmem : tid1 ∈ d.map Prod.fst := by
          cases hg : dictGet d tid1 with
          | none => rw [hg] at hold; simp [optActive] at hold
          | some t => exact mem_keys_of_dictGet hg
        have hlt := (mem_range_keys hkeys hmem).2
        simp only [createTrack]
        rw [dictGet_set_ne _ _ _ _ (by omega)]
        exact hold
      rcases List.mem_cons.mp hx with rfl | hx
      · rw [anl_get_old fid rest _ (n + 1) _ (by push_cast; omega)]
        simp only [createTrack]
        rw [dictGet_set_self]
        rfl
      · exact ih _ (n + 1) hact1 hkeys1 x hx
    · rw [anl_cons_real ht] at hx ⊢
      rcases List.mem_cons.mp hx with rfl | hx
      · have hold := hact x (by simp) ht
        have hmem : x ∈ d.map Prod.fst := by
          cases hg : dictGet d x with
          | none => rw [hg] at hold; simp [optActive] at hold
          | some t => exact mem_keys_of_dictGet hg
        have hlt := (mem_range_keys hkeys hmem).2
        rw [anl_get_old fid rest d n x hlt]
        exact hold
      · exact ih d n (fun t1 hm hne => hact t1 (by simp [hm]) hne) hkeys x hx

theorem anl_ages (fid : Int) : ∀ (l : List (Int × Pos)) (d : TrackDict) (n : Nat),
    (∀ kt ∈ d, kt.2.age = kt.2.positions.length) →
    ∀ kt ∈ (assignNewLoop fid d n l).1, kt.2.age = kt.2.positions.length := by
  intro l
  induction l with
  | nil => intro d n h; simpa [assignNewLoop] using h
  | cons pr rest ih =>
    intro d n h
    obtain ⟨tid, kp⟩ := pr
    by_cases ht : tid = -1
    · subst ht
      rw [anl_cons_sentinel]
      refine ih _ (n + 1) ?_
      intro kt hkt
      simp only [createTrack] at hkt
      rcases mem_dictSet hkt with hm | hm
      · exact h kt hm
      · subst hm; rfl
    · rw [anl_cons_real ht]
      exact ih d n h

/-! ### Lemmas about retirement -/

theorem rl_cons_skip {newIds : List Int} {tid : Int} (hmem : tid ∈ newIds)
    (d : TrackDict) (rest : List Int) :
    retireLost newIds d (tid :: rest) = retireLost newIds d rest := by
  simp [retireLost, hmem]

theorem rl_cons_none {newIds : List Int} {tid : Int} {d : TrackDict}
    (hmem : tid ∉ newIds) (hd : dictGet d tid = none) (rest : List Int) :
    retireLost newIds d (tid :: rest) = retireLost newIds d rest := by
  simp [retireLost, hmem, hd]

theorem rl_cons_sentinel {newIds : List Int} {d : TrackDict} {t : Track}
    (hmem : (-1 : Int) ∉ newIds) (hd : dictGet d (-1) = some t) (rest : List Int) :
    retireLost newIds d ((-1 : Int) :: rest) = retireLost newIds d rest := by
  simp [retireLost, hmem, hd]

theorem rl_cons_flip {newIds : List Int} {tid : Int} {d : TrackDict} {t : Track}
    (hmem : tid ∉ newIds) (hd : dictGet d tid = some t) (ht : tid ≠ -1)
    (rest : List Int) :
    retireLost newIds d (tid :: rest)
      = retireLost newIds (dictSet d tid { t with is_active := false }) rest := by
  simp [retireLost, hmem, hd, ht]

theorem rl_get (newIds : List Int) : ∀ (lst : List Int) (d : TrackDict) (k : Int),
    dictGet (retireLost newIds d lst) k =
      if k ∈ lst ∧ k ∉ newIds ∧ k ≠ -1
      then (dictGet d k).map (fun t => { t with is_active := false })
      else dictGet d k := by
  intro lst
  induction lst with
  | nil =>
    intro d k
    simp [retireLost]
  | cons tid rest ih =>
    intro d k
    by_cases hmem : tid ∈ newIds
    · rw [rl_cons_skip hmem, ih]
      by_cases hk : k = tid
      · subst hk
        rw [if_neg (by simp [hmem]), if_neg (by simp [hmem])]
      · simp only [List.mem_cons, hk, false_or]
    · cases hd : dictGet d tid with
      | none =>
        rw [rl_cons_none hmem hd, ih]
        by_cases hk : k = tid
        · subst hk
          rw [hd]
          simp
        · simp only [List.mem_cons, hk, false_or]
      | some t =>
        by_cases ht : tid = -1
        · subst ht
          rw [rl_cons_sentinel hmem hd, ih]
          by_cases hk : k = -1
          · subst hk
            rw [if_neg (by simp), if_neg (by simp)]
          · simp only [List.mem_cons, hk, false_or]
        · rw [rl_cons_flip hmem hd ht, ih]
          by_cases hk : k = tid
          · subst hk
            rw [dictGet_set_self, hd]
            split_ifs with h1 h2 h3
            · rfl
            · exact (h2 ⟨List.mem_cons_self _ _, hmem, ht⟩).elim
            · rfl
            · exact (h3 ⟨List.mem_cons_self _ _, hmem, ht⟩).elim
          · rw [dictGet_set_ne _ _ _ _ (fun h => hk h.symm)]
            simp only [List.mem_cons, hk, false_or]

theorem rl_keys (newIds : List Int) : ∀ (lst : List Int) (d : TrackDict),
    (retireLost newIds d lst).map Prod.fst = d.map Prod.fst := by
  intro lst
  induction lst with
  | nil => intro d; simp [retireLost]
  | cons tid rest ih =>
    intro d
    by_cases hmem : tid ∈ newIds
    · rw [rl_cons_skip hmem, ih]
    · cases hd : dictGet d tid with
      | none => rw [rl_cons_none hmem hd, ih]
      | some t =>
        by_cases ht : tid = -1
        · subst ht
          rw [rl_cons_sentinel hmem hd, ih]
        · rw [rl_cons_flip hmem hd ht, ih,
              dictSet_keys_of_mem _ (mem_keys_of_dictGet hd)]

theorem rl_ages (newIds : List Int) : ∀ (lst : List Int) (d : TrackDict),
    (∀ kt ∈ d, kt.2.age = kt.2.positions.length) →
    ∀ kt ∈ retireLost newIds d lst, kt.2.age = kt.2.positions.length := by
  intro lst
  induction lst with
  | nil => intro d h; simpa [retireLost] using h
  | cons tid rest ih =>
    intro d h
    by_cases hmem : tid ∈ newIds
    · rw [rl_cons_skip hmem]
      exact ih d h
    · cases hd : dictGet d tid with
      | none =>
        rw [rl_cons_none hmem hd]
        exact ih d h
      | some t =>
        by_cases ht : tid = -1
        · subst ht
          rw [rl_cons_sentinel hmem hd]
          exact ih d h
        · rw [rl_cons_flip hmem hd ht]
          refine ih _ ?_
          intro kt hkt
          rcases mem_dictSet hkt with hm | hm
          · exact h kt hm
          · subst hm
            simpa using h (tid, t) (dictGet_mem hd)

/-! ### Small bridging lemmas -/

theorem optActive_congr {o o' : Option Track}
    (h : o.map Track.is_active = o'.map Track.is_active) : optActive o = optActive o' := by
  cases o with
  | none =>
    cases o' with
    | none => rfl
    | some t => simp at h
  | some t =>
    cases o' with
    | none => simp at h
    | some t' =>
      simp at h
      simp [optActive, h]

theorem filter_bne_self {l : List Int} (h : ∀ x ∈ l, 0 ≤ x) :
    l.filter (fun tid => tid != -1) = l := by
  refine List.filter_eq_self.mpr ?_
  intro a ha
  have := h a ha
  simp only [bne_iff_ne, ne_eq]
  omega

theorem mem_replicate_neg_one {n : Nat} {x : Int}
    (h : x ∈ List.replicate n (-1 : Int)) : x = -1 :=
  (List.eq_of_mem_replicate h)

/-! ### Unfolding equations for `update` -/

theorem update_empty (st : TrackManager) (iR iC : Option (List Int)) (fid : Int) :
    update st iR iC [] fid = some { st with current_frame := fid } := by
  simp [update]

theorem update_bootstrap {st : TrackManager} {iR iC : Option (List Int)}
    {kps : List Pos} {fid : Int}
    (hb : bootstrapCond st iR iC = true) (hk : kps ≠ []) :
    update st iR iC kps fid
      = some (initTracks { st with current_frame := fid } kps fid) := by
  simp only [update]
  rw [if_neg (by simp [hk]), if_pos (by exact hb)]

theorem update_reconcile_some {st : TrackManager} {iR iC : Option (List Int)}
    {kps : List Pos} {fid : Int} {r : TrackDict × List Int}
    (hb : bootstrapCond st iR iC = false) (hk : kps ≠ [])
    (hpp : processPairs st.ref_track_ids kps fid st.tracks
        (List.replicate kps.length (-1 : Int))
        (List.zip (iR.getD []) (iC.getD [])) = some r) :
    update st iR iC kps fid = some
      { tracks := retireLost (assignNewLoop fid r.1 st.next_track_id (r.2.zip kps)).2.2
                    (assignNewLoop fid r.1 st.next_track_id (r.2.zip kps)).1
                    st.ref_track_ids,
        next_track_id := (assignNewLoop fid r.1 st.next_track_id (r.2.zip kps)).2.1,
        current_frame := fid,
        active_track_ids := ((assignNewLoop fid r.1 st.next_track_id (r.2.zip kps)).2.2).filter
                              (fun tid => tid != -1),
        ref_track_ids := (assignNewLoop fid r.1 st.next_track_id (r.2.zip kps)).2.2 } := by
  simp only [update]
  rw [if_neg (by simp [hk]), if_neg (by rw [show bootstrapCond { st with current_frame := fid } iR iC = bootstrapCond st iR iC from rfl, hb]; simp)]
  rw [show ({ st with current_frame := fid } : TrackManager).ref_track_ids
        = st.ref_track_ids from rfl,
      show ({ st with current_frame := fid } : TrackManager).tracks = st.tracks from rfl]
  rw [hpp]

theorem update_reconcile_none {st : TrackManager} {iR iC : Option (List Int)}
    {kps : List Pos} {fid : Int}
    (hb : bootstrapCond st iR iC = false) (hk : kps ≠ [])
    (hpp : processPairs st.ref_track_ids kps fid st.tracks
        (List.replicate kps.length (-1 : Int))
        (List.zip (iR.getD []) (iC.getD [])) = none) :
    update st iR iC kps fid = none := by
  simp only [update]
  rw [if_neg (by simp [hk]), if_neg (by rw [show bootstrapCond { st with current_frame := fid } iR iC = bootstrapCond st iR iC from rfl, hb]; simp)]
  rw [show ({ st with current_frame := fid } : TrackManager).ref_track_ids
        = st.ref_track_ids from rfl,
      show ({ st with current_frame := fid } : TrackManager).tracks = st.tracks from rfl]
  rw [hpp]

/-! ### The invariant is preserved by `update` -/

theorem update_TMInv {st st' : TrackManager} {iR iC : Option (List Int)}
    {kps : List Pos} {fid : Int}
    (hinv : TMInv st) (h : update st iR iC kps fid = some st') : TMInv st' := by
  obtain ⟨hkeys, hages, hact, hactive⟩ := hinv
  by_cases hk : kps = []
  · subst hk
    rw [update_empty] at h
    have heq := Option.some.inj h
    subst heq
    exact ⟨hkeys, hages, hact, hactive⟩
  · by_cases hb : bootstrapCond st iR iC = true
    · rw [update_bootstrap hb hk] at h
      have heq := Option.some.inj h
      subst heq
      simp only [initTracks]
      refine ⟨?_, ?_, ?_, ?_⟩
      · rw [itl_next]
        exact itl_keys fid kps _ _ hkeys
      · exact itl_ages fid kps _ _ hages
      · exact fun tid htid => itl_active_new fid kps _ _ tid htid
      · exact (filter_bne_self (itl_ids_nonneg fid kps _ _)).symm
    · rw [Bool.not_eq_true] at hb
      cases hpp : processPairs st.ref_track_ids kps fid st.tracks
          (List.replicate kps.length (-1 : Int))
          (List.zip (iR.getD []) (iC.getD [])) with
      | none =>
        rw [update_reconcile_none hb hk hpp] at h
        exact absurd h (by simp)
      | some r =>
        rw [update_reconcile_some hb hk hpp] at h
        have heq := Option.some.inj h
        subst heq
        have hrkeys : r.1.map Prod.fst = idKeys st.next_track_id := by
          rw [pp_keys hpp]; exact hkeys
        have hakeys : (assignNewLoop fid r.1 st.next_track_id (r.2.zip kps)).1.map Prod.fst
            = idKeys (assignNewLoop fid r.1 st.next_track_id (r.2.zip kps)).2.1 :=
          anl_keys fid _ r.1 st.next_track_id hrkeys
        refine ⟨?_, ?_, ?_, ?_⟩
        · show (retireLost _ _ _).map Prod.fst = _
          rw [rl_keys]
          exact hakeys
        · exact rl_ages _ _ _ (anl_ages fid _ _ _ (pp_ages hpp hages))
        · intro tid htid
          have hmapfst : (r.2.zip kps).map Prod.fst = r.2 := by
            apply List.map_fst_zip
            rw [pp_len hpp]
            simp
          have hact1 : ∀ t1 ∈ (r.2.zip kps).map Prod.fst, t1 ≠ -1 →
              optActive (dictGet r.1 t1) = true := by
            rw [hmapfst]
            intro t1 hm hne
            rcases pp_na hpp t1 hm with hna | href
            · exact absurd (mem_replicate_neg_one hna) hne
            · rw [optActive_congr (pp_active hpp t1)]
              exact hact t1 href
          have hActA := anl_active fid _ r.1 st.next_track_id hact1 hrkeys tid htid
          show optActive (dictGet (retireLost _ _ _) tid) = true
          rw [rl_get, if_neg (by rintro ⟨_, hnot, _⟩; exact hnot htid)]
          exact hActA
        · rfl

/-- Every reachable state satisfies the invariant. -/
theorem reachable_TMInv {st : TrackManager} (h : Reachable st) : TMInv st := by
  induction h with
  | init => exact ⟨rfl, by simp [initTM], by simp [initTM], rfl⟩
  | step _ hu ih => exact update_TMInv ih hu

/-! ### Permanence: ids outside the reference list are never touched again -/

theorem update_next_mono {st st' : TrackManager} {iR iC : Option (List Int)}
    {kps : List Pos} {fid : Int}
    (h : update st iR iC kps fid = some st') :
    st.next_track_id ≤ st'.next_track_id := by
  by_cases hk : kps = []
  · subst hk
    rw [update_empty] at h
    have heq := Option.some.inj h
    subst heq
    exact le_rfl
  · by_cases hb : bootstrapCond st iR iC = true
    · rw [update_bootstrap hb hk] at h
      have heq := Option.some.inj h
      subst heq
      simp only [initTracks]
      rw [itl_next]
      omega
    · rw [Bool.not_eq_true] at hb
      cases hpp : processPairs st.ref_track_ids kps fid st.tracks
          (List.replicate kps.length (-1 : Int))
          (List.zip (iR.getD []) (iC.getD [])) with
      | none =>
        rw [update_reconcile_none hb hk hpp] at h
        exact absurd h (by simp)
      | some r =>
        rw [update_reconcile_some hb hk hpp] at h
        have heq := Option.some.inj h
        subst heq
        exact anl_next_mono fid _ r.1 st.next_track_id

theorem update_frozen {st st' : TrackManager} {iR iC : Option (List Int)}
    {kps : List Pos} {fid : Int} {tid : Int}
    (hlt : tid < (st.next_track_id : Int)) (hnotref : tid ∉ st.ref_track_ids)
    (h : update st iR iC kps fid = some st') :
    dictGet st'.tracks tid = dictGet st.tracks tid ∧ tid ∉ st'.ref_track_ids
      ∧ tid < (st'.next_track_id : Int) := by
  have hmono : (st.next_track_id : Int) ≤ (st'.next_track_id : Int) := by
    exact_mod_cast update_next_mono h
  by_cases hk : kps = []
  · subst hk
    rw [update_empty] at h
    have heq := Option.some.inj h
    subst heq
    exact ⟨rfl, hnotref, hlt⟩
  · by_cases hb : bootstrapCond st iR iC = true
    · rw [update_bootstrap hb hk] at h
      have heq := Option.some.inj h
      subst heq
      refine ⟨?_, ?_, by omega⟩
      · simp only [initTracks]
        exact itl_get_old fid kps _ _ tid hlt
      · simp only [initTracks]
        intro hmem
        rw [itl_ids] at hmem
        simp only [List.mem_map, List.mem_range] at hmem
        obtain ⟨i, _, hEq⟩ := hmem
        have : ((st.next_track_id + i : Nat) : Int) = tid := hEq
        push_cast at this
        omega
    · rw [Bool.not_eq_true] at hb
      cases hpp : processPairs st.ref_track_ids kps fid st.tracks
          (List.replicate kps.length (-1 : Int))
          (List.zip (iR.getD []) (iC.getD [])) with
      | none =>
        rw [update_reconcile_none hb hk hpp] at h
        exact absurd h (by simp)
      | some r =>
        rw [update_reconcile_some hb hk hpp] at h
        have heq := Option.some.inj h
        subst heq
        have hmapfst : (r.2.zip kps).map Prod.fst = r.2 := by
          apply List.map_fst_zip
          rw [pp_len hpp]
          simp
        refine ⟨?_, ?_, by omega⟩
        · show dictGet (retireLost _ _ _) tid = _
          rw [rl_get, if_neg (by rintro ⟨hmem, _, _⟩; exact hnotref hmem)]
          rw [anl_get_old fid _ r.1 st.next_track_id tid hlt]
          exact pp_untouched hpp hnotref
        · intro hmem
          rcases anl_mem_ids fid _ r.1 st.next_track_id tid hmem with ⟨hm, hne⟩ | ⟨h1, _⟩
          · rw [hmapfst] at hm
            rcases pp_na hpp tid hm with hna | href
            · exact hne (mem_replicate_neg_one hna)
            · exact hnotref href
          · omega

theorem runCalls_frozen {cs : List Call} : ∀ {st st' : TrackManager} {tid : Int},
    tid < (st.next_track_id : Int) → tid ∉ st.ref_track_ids →
    runCalls st cs = some st' →
    dictGet st'.tracks tid = dictGet st.tracks tid ∧ tid ∉ st'.ref_track_ids := by
  induction cs with
  | nil =>
    intro st st' tid _ hnotref h
    have heq := Option.some.inj h
    subst heq
    exact ⟨rfl, hnotref⟩
  | cons c rest ih =>
    intro st st' tid hlt hnotref h
    simp only [runCalls] at h
    cases hu : update st c.idxsRef c.idxsCur c.kpsCur c.frameId with
    | none => rw [hu] at h; exact absurd h (by simp)
    | some st1 =>
      rw [hu] at h
      obtain ⟨hg, hr, hlt1⟩ := update_frozen hlt hnotref hu
      obtain ⟨hg1, hr1⟩ := ih hlt1 hr h
      exact ⟨hg1.trans hg, hr1⟩

/-! ### Claim theorems -/

/-- C7: calling `update` with an empty detections sequence records
`frame_id` as `current_frame` and changes nothing else: no track record
is created, modified or retired, `next_track_id` is unchanged, and
`ref_track_ids` and `active_track_ids` are unchanged. -/
theorem empty_detections_only_sets_frame (st : TrackManager)
    (iR iC : Option (List Int)) (fid : Int) :
    update st iR iC [] fid = some { st with current_frame := fid } :=
  update_empty st iR iC fid

/-- C9: `export_tracks` does not mutate any `TrackManager` state, so a
second export with no intervening `update` returns the identical
document. -/
theorem export_is_pure_and_idempotent (st : TrackManager) :
    (exportTracks st).2 = st
    ∧ (exportTracks (exportTracks st).2).1 = (exportTracks st).1 :=
  ⟨rfl, rfl⟩

/-- C8: on a store with no tracks, every statistics field is its
zero-valued default (and the query is a total function: it cannot
raise). -/
theorem empty_store_stats_zero {st : TrackManager} (hinv : TMInv st)
    (h : st.tracks = []) :
    getTrackStatistics st =
      { total_tracks := 0, active_tracks := 0, mean_track_length := 0,
        median_track_length := 0, std_track_length := 0, max_track_length := 0,
        min_track_length := 0, mean_active_track_length := 0 } := by
  have href : st.ref_track_ids = [] := by
    cases hr : st.ref_track_ids with
    | nil => rfl
    | cons b l =>
      have hb := hinv.2.2.1 b (by rw [hr]; exact List.mem_cons_self _ _)
      rw [h] at hb
      simp [dictGet, optActive] at hb
  have hactive : st.active_track_ids = [] := by
    rw [hinv.2.2.2, href]
    rfl
  simp [getTrackStatistics, getTrackAges, getActiveTrackAges, h, hactive]

/-- Witness for C8 at the freshly constructed manager. -/
theorem empty_store_stats_zero_witness :
    getTrackStatistics initTM =
      { total_tracks := 0, active_tracks := 0, mean_track_length := 0,
        median_track_length := 0, std_track_length := 0, max_track_length := 0,
        min_track_length := 0, mean_active_track_length := 0 } :=
  empty_store_stats_zero (by decide) rfl

/-- C5: in every reachable state the dict keys are exactly
`0, 1, ..., next_track_id - 1` in insertion (= creation) order, so ids are
issued starting at 0, strictly increasing, none skipped and none reused;
`next_track_id` equals the number of tracks ever created and no stored id
is `≥ next_track_id`. -/
theorem ids_consecutive_from_zero {st : TrackManager} (h : Reachable st) :
    st.tracks.map Prod.fst = idKeys st.next_track_id
    ∧ st.next_track_id = st.tracks.length
    ∧ ∀ k ∈ st.tracks.map Prod.fst, 0 ≤ k ∧ k < (st.next_track_id : Int) := by
  have hinv := reachable_TMInv h
  refine ⟨hinv.1, ?_, fun k hk => mem_range_keys hinv.1 hk⟩
  have hlen := congrArg List.length hinv.1
  rw [List.length_map, length_idKeys] at hlen
  omega

/-- Witness for C5 at a state reached by one bootstrap call. -/
theorem ids_consecutive_from_zero_witness :
    sampleTM2.tracks.map Prod.fst = idKeys sampleTM2.next_track_id
    ∧ sampleTM2.next_track_id = sampleTM2.tracks.length
    ∧ ∀ k ∈ sampleTM2.tracks.map Prod.fst, 0 ≤ k ∧ k < (sampleTM2.next_track_id : Int) :=
  ids_consecutive_from_zero
    (@Reachable.step initTM sampleTM2 none none
      [((0 : Int), (0 : Int)), ((1 : Int), (1 : Int))] 0 Reachable.init (by decide))

/-- C6: in every reachable state, every track's `age` equals the length
of its `positions`, and every entry of the export has
`num_observations` equal to its `age`. -/
theorem age_matches_positions_and_export {st : TrackManager} (h : Reachable st) :
    (∀ kt ∈ st.tracks, kt.2.age = kt.2.positions.length)
    ∧ ∀ e ∈ (exportTracks st).1.tracks, e.2.num_observations = e.2.age := by
  have hinv := reachable_TMInv h
  refine ⟨hinv.2.1, ?_⟩
  intro e he
  simp only [exportTracks, List.mem_map] at he
  obtain ⟨kt, hkt, rfl⟩ := he
  exact (hinv.2.1 kt hkt).symm

/-- Witness for C6 at a state reached by two calls (one continuation, one
retirement). -/
theorem age_matches_positions_and_export_witness :
    (∀ kt ∈ sampleRetired.tracks, kt.2.age = kt.2.positions.length)
    ∧ ∀ e ∈ (exportTracks sampleRetired).1.tracks, e.2.num_observations = e.2.age :=
  age_matches_positions_and_export
    (@Reachable.step sampleTM2 sampleRetired (some [0]) (some [0])
      [((9 : Int), (9 : Int))] 1
      (@Reachable.step initTM sampleTM2 none none
        [((0 : Int), (0 : Int)), ((1 : Int), (1 : Int))] 0 Reachable.init (by decide))
      (by decide))

/-- C10: once a track is inactive, every later sequence of `update` calls
(of any shape) leaves its whole record unchanged. -/
theorem inactive_track_record_frozen {st st' : TrackManager} {tid : Int} {t : Track}
    {cs : List Call}
    (hinv : TMInv st) (ht : dictGet st.tracks tid = some t)
    (hia : t.is_active = false) (h : runCalls st cs = some st') :
    dictGet st'.tracks tid = some t := by
  have hnotref : tid ∉ st.ref_track_ids := by
    intro hmem
    have hb := hinv.2.2.1 tid hmem
    rw [ht] at hb
    simp [optActive, hia] at hb
  have hlt : tid < (st.next_track_id : Int) :=
    (mem_range_keys hinv.1 (mem_keys_of_dictGet ht)).2
  rw [(runCalls_frozen hlt hnotref h).1, ht]

/-- Witness for C10: the retired track `1` survives one more call
untouched. -/
theorem inactive_track_record_frozen_witness :
    dictGet
      ({ tracks := [(0, ⟨3, 0, 2, [(0, 0), (9, 9), (5, 5)], true⟩),
                    (1, ⟨1, 0, 0, [(1, 1)], false⟩)],
         next_track_id := 2, current_frame := 2,
         active_track_ids := [0], ref_track_ids := [0] } : TrackManager).tracks 1
      = some ⟨1, 0, 0, [(1, 1)], false⟩ :=
  @inactive_track_record_frozen sampleRetired
    { tracks := [(0, ⟨3, 0, 2, [(0, 0), (9, 9), (5, 5)], true⟩),
                 (1, ⟨1, 0, 0, [(1, 1)], false⟩)],
      next_track_id := 2, current_frame := 2,
      active_track_ids := [0], ref_track_ids := [0] }
    1 ⟨1, 0, 0, [(1, 1)], false⟩
    [⟨some [0], some [0], [((5 : Int), (5 : Int))], 2⟩]
    (by decide) (by decide) (by decide) (by decide)

/-- C1 fails as stated: when a non-first frame takes the bootstrap path
(empty correspondences), ids that vanish from `reference_ids` are NOT
marked inactive.  Concretely, after bootstrapping tracks `0, 1`, a second
call with empty `idxs_ref` drops id `0` from the reference list while its
record keeps `is_active = true`. -/
theorem lost_id_not_retired_on_bootstrap_cex :
    update initTM none none [((0 : Int), (0 : Int)), ((1 : Int), (1 : Int))] 0
      = some sampleTM2
    ∧ (0 : Int) ∈ sampleTM2.ref_track_ids
    ∧ update sampleTM2 (some []) (some [(0 : Int)]) [((9 : Int), (9 : Int))] 1
      = some sampleBootAgain
    ∧ (0 : Int) ∉ sampleBootAgain.ref_track_ids
    ∧ (dictGet sampleBootAgain.tracks 0).map Track.is_active = some true := by
  exact ⟨by decide, by decide, by decide, by decide, by decide⟩

/-- C1 (amended): an id that is in `reference_ids` before an `update` and
absent after never appears in `reference_ids` again; and when that call
took the reconciliation path (correspondences present and usable), the id
was active before the call and its record is marked inactive by it (a
single true-to-false transition).  In the bootstrap path the source
deliberately retires nothing, so the inactivity part is restricted to
reconciliation calls. -/
theorem reconcile_lost_id_retired_permanently
    {st st' : TrackManager} {iR iC : Option (List Int)} {kps : List Pos} {fid : Int}
    {tid : Int}
    (hinv : TMInv st) (h : update st iR iC kps fid = some st')
    (hbefore : tid ∈ st.ref_track_ids) (hafter : tid ∉ st'.ref_track_ids) :
    (∀ cs st2, runCalls st' cs = some st2 → tid ∉ st2.ref_track_ids)
    ∧ (bootstrapCond st iR iC = false →
        optActive (dictGet st.tracks tid) = true
        ∧ (dictGet st'.tracks tid).map Track.is_active = some false) := by
  have hactb := hinv.2.2.1 tid hbefore
  obtain ⟨t, ht, htact⟩ : ∃ t, dictGet st.tracks tid = some t ∧ t.is_active = true := by
    cases hg : dictGet st.tracks tid with
    | none => rw [hg] at hactb; simp [optActive] at hactb
    | some t => exact ⟨t, rfl, by rw [hg] at hactb; exact hactb⟩
  have hbounds := mem_range_keys hinv.1 (mem_keys_of_dictGet ht)
  have hlt' : tid < (st'.next_track_id : Int) := by
    have hm := update_next_mono h
    have hm' : (st.next_track_id : Int) ≤ (st'.next_track_id : Int) := by exact_mod_cast hm
    omega
  refine ⟨fun cs st2 hrun => (runCalls_frozen hlt' hafter hrun).2, fun hboot => ?_⟩
  refine ⟨hactb, ?_⟩
  by_cases hk : kps = []
  · subst hk
    rw [update_empty] at h
    have heq := Option.some.inj h
    subst heq
    exact absurd hbefore hafter
  · cases hpp : processPairs st.ref_track_ids kps fid st.tracks
        (List.replicate kps.length (-1 : Int))
        (List.zip (iR.getD []) (iC.getD [])) with
    | none =>
      rw [update_reconcile_none hboot hk hpp] at h
      exact absurd h (by simp)
    | some r =>
      rw [update_reconcile_some hboot hk hpp] at h
      have heq := Option.some.inj h
      subst heq
      have hnotnew : tid ∉ (assignNewLoop fid r.1 st.next_track_id (r.2.zip kps)).2.2 :=
        hafter
      show ((dictGet (retireLost _ _ _) tid).map Track.is_active) = some false
      rw [rl_get, if_pos ⟨hbefore, hnotnew, by omega⟩,
          anl_get_old fid _ r.1 st.next_track_id tid hbounds.2]
      have hpa := pp_active hpp tid
      rw [ht] at hpa
      cases hg : dictGet r.1 tid with
      | none => rw [hg] at hpa; simp at hpa
      | some t2 => rfl

/-- Witness for the amended C1: losing track `1` in a reconciliation call
retires it for good. -/
theorem reconcile_lost_id_retired_permanently_witness :
    (∀ cs st2, runCalls sampleRetired cs = some st2 → (1 : Int) ∉ st2.ref_track_ids)
    ∧ (bootstrapCond sampleTM2 (some [0]) (some [0]) = false →
        optActive (dictGet sampleTM2.tracks 1) = true
        ∧ (dictGet sampleRetired.tracks 1).map Track.is_active = some false) :=
  @reconcile_lost_id_retired_permanently sampleTM2 sampleRetired
    (some [0]) (some [0]) [((9 : Int), (9 : Int))] 1 1
    (by decide) (by decide) (by decide) (by decide)

/-- C3 fails on the code: a negative correspondence index is not
rejected by the bounds check (`idx < len` holds for every negative
index), so `idxs_ref = [-1]` silently wraps to the LAST reference id,
continuing track `1` (its age grows to 2, a position is appended, no new
track is created for the detection), and an index below `-len`, such as
`-3`, raises `IndexError` instead of being ignored. -/
theorem negative_correspondence_index_wraps :
    update initTM none none [((0 : Int), (0 : Int)), ((1 : Int), (1 : Int))] 0
      = some sampleTM2
    ∧ update sampleTM2 (some [(-1 : Int)]) (some [(0 : Int)])
        [((9 : Int), (9 : Int))] 1
      = some { tracks := [(0, ⟨1, 0, 0, [(0, 0)], false⟩),
                          (1, ⟨2, 0, 1, [(1, 1), (9, 9)], true⟩)],
               next_track_id := 2, current_frame := 1,
               active_track_ids := [1], ref_track_ids := [1] }
    ∧ update sampleTM2 (some [(-3 : Int)]) (some [(0 : Int)])
        [((9 : Int), (9 : Int))] 1 = none := by
  exact ⟨by decide, by decide, by decide⟩

/-- C2: for non-empty detections, the bootstrap case runs exactly when the
correspondences are absent or empty or the store has no prior reference
ids; and it is exactly the calls with the spec's bootstrap outcome: every
detection becomes a brand-new track (`age = 1`, active,
`first_frame = last_frame = frame_id`), the new ids in detection order
become both `ref_track_ids` and `active_track_ids`, and no pre-existing
track record changes (in particular no previously active track is
retired). -/
theorem bootstrap_iff_new_tracks {st : TrackManager} {iR iC : Option (List Int)}
    {kps : List Pos} {fid : Int}
    (hinv : TMInv st) (hk : kps ≠ []) :
    bootstrapCond st iR iC = true
      ↔ ∃ st', update st iR iC kps fid = some st' ∧ bootstrapEffect st st' kps fid := by
  constructor
  · intro hb
    refine ⟨initTracks { st with current_frame := fid } kps fid, update_bootstrap hb hk,
      ?_, ?_, rfl, ?_, ?_, rfl⟩
    · exact itl_next fid kps st.tracks st.next_track_id
    · exact itl_ids fid kps st.tracks st.next_track_id
    · intro i kp hkp
      exact itl_get_new fid kps st.tracks st.next_track_id i kp hkp
    · intro k hkmem
      exact itl_get_old fid kps st.tracks st.next_track_id k (mem_range_keys hinv.1 hkmem).2
  · rintro ⟨st', hup, heff⟩
    by_contra hb
    rw [Bool.not_eq_true] at hb
    cases hpp : processPairs st.ref_track_ids kps fid st.tracks
        (List.replicate kps.length (-1 : Int))
        (List.zip (iR.getD []) (iC.getD [])) with
    | none =>
      rw [update_reconcile_none hb hk hpp] at hup
      exact absurd hup (by simp)
    | some r =>
      rw [update_reconcile_some hb hk hpp] at hup
      have heq := Option.some.inj hup
      subst heq
      obtain ⟨hnext, hrefs, hactv, hnew, hold, hcf⟩ := heff
      have hmapfst : (r.2.zip kps).map Prod.fst = r.2 := by
        apply List.map_fst_zip
        rw [pp_len hpp, List.length_replicate]
      have hnext' : (assignNewLoop fid r.1 st.next_track_id (r.2.zip kps)).2.1
          = st.next_track_id + kps.length := hnext
      have hanl := anl_next fid (r.2.zip kps) r.1 st.next_track_id
      have hziplen : (r.2.zip kps).length = kps.length := by
        rw [List.length_zip, pp_len hpp, List.length_replicate, Nat.min_self]
      have hcount : (r.2.zip kps).countP (fun pr => pr.1 == -1) = (r.2.zip kps).length := by
        rw [hziplen]
        omega
      have hr2 : ∀ x ∈ r.2, x = -1 := by
        intro x hx
        rw [← hmapfst] at hx
        simp only [List.mem_map] at hx
        obtain ⟨pr, hpr, rfl⟩ := hx
        have := List.countP_eq_length.mp hcount pr hpr
        simpa using this
      have hrefne : st.ref_track_ids ≠ [] := by
        intro hnil
        simp [bootstrapCond, hnil] at hb
      obtain ⟨b, l, hbl⟩ : ∃ b l, st.ref_track_ids = b :: l := by
        cases hr : st.ref_track_ids with
        | nil => exact absurd hr hrefne
        | cons b l => exact ⟨b, l, rfl⟩
      have hbmem : b ∈ st.ref_track_ids := by rw [hbl]; exact List.mem_cons_self _ _
      have hbact := hinv.2.2.1 b hbmem
      obtain ⟨t, ht, htact⟩ : ∃ t, dictGet st.tracks b = some t ∧ t.is_active = true := by
        cases hg : dictGet st.tracks b with
        | none => rw [hg] at hbact; simp [optActive] at hbact
        | some t => exact ⟨t, rfl, by rw [hg] at hbact; exact hbact⟩
      have hbounds := mem_range_keys hinv.1 (mem_keys_of_dictGet ht)
      have hbnotnew : b ∉ (assignNewLoop fid r.1 st.next_track_id (r.2.zip kps)).2.2 := by
        intro hmem
        rcases anl_mem_ids fid _ r.1 st.next_track_id b hmem with ⟨hm, hne⟩ | ⟨h1, _⟩
        · rw [hmapfst] at hm
          exact hne (hr2 b hm)
        · have h2 := hbounds.2
          omega
      have hpa := pp_active hpp b
      rw [ht] at hpa
      cases hg : dictGet r.1 b with
      | none => rw [hg] at hpa; simp at hpa
      | some t2 =>
        have hfin : dictGet (retireLost
              (assignNewLoop fid r.1 st.next_track_id (r.2.zip kps)).2.2
              (assignNewLoop fid r.1 st.next_track_id (r.2.zip kps)).1
              st.ref_track_ids) b
            = some { t2 with is_active := false } := by
          rw [rl_get, if_pos ⟨hbmem, hbnotnew, by omega⟩,
              anl_get_old fid _ r.1 st.next_track_id b hbounds.2, hg]
          rfl
        have hold_b : dictGet (retireLost
              (assignNewLoop fid r.1 st.next_track_id (r.2.zip kps)).2.2
              (assignNewLoop fid r.1 st.next_track_id (r.2.zip kps)).1
              st.ref_track_ids) b = dictGet st.tracks b :=
          hold b (mem_keys_of_dictGet ht)
        rw [hfin, ht] at hold_b
        have hEq := Option.some.inj hold_b
        rw [← hEq] at htact
        simp at htact

/-- Witness for C2: three detections with no correspondences on a fresh
manager take the bootstrap path with the described outcome. -/
theorem bootstrap_iff_new_tracks_witness :
    bootstrapCond initTM none none = true
      ↔ ∃ st', update initTM none none
          [((0 : Int), (0 : Int)), ((1 : Int), (1 : Int)), ((2 : Int), (2 : Int))] 5
            = some st'
        ∧ bootstrapEffect initTM st'
            [((0 : Int), (0 : Int)), ((1 : Int), (1 : Int)), ((2 : Int), (2 : Int))] 5 :=
  bootstrap_iff_new_tracks (by decide) (by decide)

/-! ### In-range correspondence processing (for the continuation claim) -/

theorem nodup_get?_ne {l : List Int} (hnd : l.Nodup) {i j : Nat}
    (hi : i < l.length) (hj : j < l.length) (hij : i ≠ j) {x : Int}
    (hx : l.get? i = some x) : l.get? j ≠ some x := by
  intro hcon
  rw [List.get?_eq_get hi] at hx
  rw [List.get?_eq_get hj] at hcon
  have h1 := Option.some.inj hx
  have h2 := Option.some.inj hcon
  have h3 : l.get ⟨j, hj⟩ = l.get ⟨i, hi⟩ := by rw [h2, ← h1]
  have h4 := (List.Nodup.get_inj_iff hnd).mp h3
  exact hij (by simpa using h4.symm)

theorem get?_zip_of_get? {α β : Type} : ∀ {l1 : List α} {l2 : List β} {i : Nat} {a : α} {b : β},
    l1.get? i = some a → l2.get? i = some b → (l1.zip l2).get? i = some (a, b) := by
  intro l1
  induction l1 with
  | nil => intro l2 i a b h1 _; simp at h1
  | cons x rest ih =>
    intro l2 i a b h1 h2
    cases l2 with
    | nil => simp at h2
    | cons y rest2 =>
      cases i with
      | zero =>
        simp at h1 h2
        subst h1; subst h2
        rfl
      | succ i =>
        simp only [List.get?_cons_succ] at h1 h2
        simpa [List.zip_cons_cons] using ih h1 h2

theorem processPair_inrange {refIds : List Int} {kps : List Pos} {fid : Int}
    {tracks : TrackDict} {naIds : List Int} {pr : Int × Int}
    (h1 : 0 ≤ pr.1) (h2 : pr.1 < (refIds.length : Int))
    (h3 : 0 ≤ pr.2) (h4 : pr.2 < (kps.length : Int))
    (hlen : naIds.length = kps.length)
    {tid : Int} (htid : refIds.get? pr.1.toNat = some tid)
    {kp : Pos} (hkp : kps.get? pr.2.toNat = some kp) :
    processPair refIds kps fid tracks naIds pr
      = some ((match dictGet tracks tid with
               | none => tracks
               | some t => dictSet tracks tid
                   { t with age := t.age + 1, last_frame := fid,
                            positions := t.positions ++ [kp] }),
              naIds.set pr.2.toNat tid) := by
  have hset : pySet naIds pr.2 tid = some (naIds.set pr.2.toNat tid) := by
    unfold pySet
    rw [if_pos h3, if_pos (by omega : pr.2 < (naIds.length : Int))]
  unfold processPair
  rw [if_pos ⟨h2, h4⟩]
  simp only [pyGet_nonneg h1, pyGet_nonneg h3, htid, hkp, hset]
  cases dictGet tracks tid <;> rfl

theorem pp_inrange_some {refIds : List Int} {kps : List Pos} {fid : Int} :
    ∀ {pairs : List (Int × Int)} {tracks : TrackDict} {naIds : List Int},
    (∀ pr ∈ pairs, 0 ≤ pr.1 ∧ pr.1 < (refIds.length : Int)
      ∧ 0 ≤ pr.2 ∧ pr.2 < (kps.length : Int)) →
    naIds.length = kps.length →
    ∃ r, processPairs refIds kps fid tracks naIds pairs = some r := by
  intro pairs
  induction pairs with
  | nil => intro tracks naIds _ _; exact ⟨_, rfl⟩
  | cons pr rest ih =>
    intro tracks naIds hall hlen
    obtain ⟨h1, h2, h3, h4⟩ := hall pr (List.mem_cons_self _ _)
    have hp : pr.1.toNat < refIds.length := by omega
    have hc : pr.2.toNat < kps.length := by omega
    have htid := List.get?_eq_get hp
    have hkp := List.get?_eq_get hc
    obtain ⟨r, hr⟩ := @ih (match dictGet tracks (refIds.get ⟨pr.1.toNat, hp⟩) with
        | none => tracks
        | some t => dictSet tracks (refIds.get ⟨pr.1.toNat, hp⟩)
            { t with age := t.age + 1, last_frame := fid,
                     positions := t.positions ++ [kps.get ⟨pr.2.toNat, hc⟩] })
      (naIds.set pr.2.toNat (refIds.get ⟨pr.1.toNat, hp⟩))
      (fun q hq => hall q (List.mem_cons_of_mem _ hq)) (by simpa using hlen)
    refine ⟨r, ?_⟩
    simp only [processPairs]
    rw [processPair_inrange h1 h2 h3 h4 hlen htid hkp]
    exact hr

theorem pp_inrange_slot_other {refIds : List Int} {kps : List Pos} {fid : Int} :
    ∀ {pairs : List (Int × Int)} {tracks : TrackDict} {naIds : List Int}
      {r : TrackDict × List Int},
    (∀ pr ∈ pairs, 0 ≤ pr.1 ∧ pr.1 < (refIds.length : Int)
      ∧ 0 ≤ pr.2 ∧ pr.2 < (kps.length : Int)) →
    naIds.length = kps.length →
    processPairs refIds kps fid tracks naIds pairs = some r →
    ∀ j : Nat, (∀ pr ∈ pairs, pr.2.toNat ≠ j) → r.2.get? j = naIds.get? j := by
  intro pairs
  induction pairs with
  | nil =>
    intro tracks naIds r _ _ h j _
    simp only [processPairs, Option.some.injEq] at h
    rw [← h]
  | cons pr rest ih =>
    intro tracks naIds r hall hlen h j hnotj
    obtain ⟨h1, h2, h3, h4⟩ := hall pr (List.mem_cons_self _ _)
    have hp : pr.1.toNat < refIds.length := by omega
    have hc : pr.2.toNat < kps.length := by omega
    have htid := List.get?_eq_get hp
    have hkp := List.get?_eq_get hc
    simp only [processPairs] at h
    rw [processPair_inrange h1 h2 h3 h4 hlen htid hkp] at h
    rw [ih (fun q hq => hall q (List.mem_cons_of_mem _ hq)) (by simpa using hlen) h j
        (fun q hq => hnotj q (List.mem_cons_of_mem _ hq))]
    exact List.get?_set_ne _ _ (hnotj pr (List.mem_cons_self _ _))

theorem pp_inrange_slot_hit {refIds : List Int} {kps : List Pos} {fid : Int} :
    ∀ {pairs : List (Int × Int)} {tracks : TrackDict} {naIds : List Int}
      {r : TrackDict × List Int},
    (∀ pr ∈ pairs, 0 ≤ pr.1 ∧ pr.1 < (refIds.length : Int)
      ∧ 0 ≤ pr.2 ∧ pr.2 < (kps.length : Int)) →
    naIds.length = kps.length →
    ((pairs.map Prod.snd).Nodup) →
    processPairs refIds kps fid tracks naIds pairs = some r →
    ∀ {p c : Nat} {tid : Int}, ((p : Int), (c : Int)) ∈ pairs →
    refIds.get? p = some tid → r.2.get? c = some tid := by
  intro pairs
  induction pairs with
  | nil =>
    intro tracks naIds r _ _ _ _ p c tid hmem _
    simp at hmem
  | cons pr rest ih =>
    intro tracks naIds r hall hlen hnd2 h p c tid hmem htid
    obtain ⟨h1, h2, h3, h4⟩ := hall pr (List.mem_cons_self _ _)
    have hp : pr.1.toNat < refIds.length := by omega
    have hc : pr.2.toNat < kps.length := by omega
    have htid0 := List.get?_eq_get hp
    have hkp0 := List.get?_eq_get hc
    simp only [processPairs] at h
    rw [processPair_inrange h1 h2 h3 h4 hlen htid0 hkp0] at h
    rcases List.mem_cons.mp hmem with hEq | hmem'
    · have hpr1 : pr.1 = (p : Int) := by rw [← hEq]
      have hpr2 : pr.2 = (c : Int) := by rw [← hEq]
      have hptn : pr.1.toNat = p := by omega
      have hctn : pr.2.toNat = c := by omega
      have hrest : ∀ q ∈ rest, q.2.toNat ≠ c := by
        intro q hq hqc
        have hq3 := (hall q (List.mem_cons_of_mem _ hq)).2.2.1
        have hq2c : q.2 = (c : Int) := by omega
        have hne : pr.2 ∉ rest.map Prod.snd := (List.nodup_cons.mp hnd2).1
        apply hne
        rw [hpr2, ← hq2c]
        exact List.mem_map_of_mem _ hq
      have hval : refIds.get ⟨pr.1.toNat, hp⟩ = tid := by
        have h1' : refIds.get? pr.1.toNat = some tid := by rw [hptn]; exact htid
        exact Option.some.inj (htid0.symm.trans h1')
      have hgoal : (naIds.set pr.2.toNat (refIds.get ⟨pr.1.toNat, hp⟩)).get? c
          = some tid := by
        rw [hval, hctn]
        exact List.get?_set_eq_of_lt _ (by omega)
      rw [pp_inrange_slot_other (fun q hq => hall q (List.mem_cons_of_mem _ hq))
          (by simpa using hlen) h c hrest]
      exact hgoal
    · exact ih (fun q hq => hall q (List.mem_cons_of_mem _ hq)) (by simpa using hlen)
        (List.nodup_cons.mp hnd2).2 h hmem' htid

theorem pp_inrange_track_other {refIds : List Int} {kps : List Pos} {fid : Int} :
    ∀ {pairs : List (Int × Int)} {tracks : TrackDict} {naIds : List Int}
      {r : TrackDict × List Int},
    (∀ pr ∈ pairs, 0 ≤ pr.1 ∧ pr.1 < (refIds.length : Int)
      ∧ 0 ≤ pr.2 ∧ pr.2 < (kps.length : Int)) →
    naIds.length = kps.length →
    processPairs refIds kps fid tracks naIds pairs = some r →
    ∀ {tid : Int}, (∀ pr ∈ pairs, refIds.get? pr.1.toNat ≠ some tid) →
    dictGet r.1 tid = dictGet tracks tid := by
  intro pairs
  induction pairs with
  | nil =>
    intro tracks naIds r _ _ h tid _
    simp only [processPairs, Option.some.injEq] at h
    rw [← h]
  | cons pr rest ih =>
    intro tracks naIds r hall hlen h tid hno
    obtain ⟨h1, h2, h3, h4⟩ := hall pr (List.mem_cons_self _ _)
    have hp : pr.1.toNat < refIds.length := by omega
    have hc : pr.2.toNat < kps.length := by omega
    have htid0 := List.get?_eq_get hp
    have hkp0 := List.get?_eq_get hc
    simp only [processPairs] at h
    rw [processPair_inrange h1 h2 h3 h4 hlen htid0 hkp0] at h
    have hne : refIds.get ⟨pr.1.toNat, hp⟩ ≠ tid := by
      intro hcon
      exact hno pr (List.mem_cons_self _ _) (by rw [htid0, hcon])
    have hrec := ih (fun q hq => hall q (List.mem_cons_of_mem _ hq))
      (by simpa using hlen) h (fun q hq => hno q (List.mem_cons_of_mem _ hq))
    rw [hrec]
    cases hd : dictGet tracks (refIds.get ⟨pr.1.toNat, hp⟩)
    · rfl
    · exact dictGet_set_ne _ _ _ _ hne

theorem pp_inrange_track_hit {refIds : List Int} {kps : List Pos} {fid : Int} :
    ∀ {pairs : List (Int × Int)} {tracks : TrackDict} {naIds : List Int}
      {r : TrackDict × List Int},
    (∀ pr ∈ pairs, 0 ≤ pr.1 ∧ pr.1 < (refIds.length : Int)
      ∧ 0 ≤ pr.2 ∧ pr.2 < (kps.length : Int)) →
    naIds.length = kps.length →
    ((pairs.map Prod.fst).Nodup) →
    refIds.Nodup →
    processPairs refIds kps fid tracks naIds pairs = some r →
    ∀ {p c : Nat} {tid : Int} {t : Track} {kp : Pos},
    ((p : Int), (c : Int)) ∈ pairs →
    refIds.get? p = some tid → dictGet tracks tid = some t → kps.get? c = some kp →
    dictGet r.1 tid = some { t with age := t.age + 1, last_frame := fid,
                                    positions := t.positions ++ [kp] } := by
  intro pairs
  induction pairs with
  | nil =>
    intro tracks naIds r _ _ _ _ _ p c tid t kp hmem _ _ _
    simp at hmem
  | cons pr rest ih =>
    intro tracks naIds r hall hlen hnd1 hndref h p c tid t kp hmem htid ht hkp
    obtain ⟨h1, h2, h3, h4⟩ := hall pr (List.mem_cons_self _ _)
    have hp0 : pr.1.toNat < refIds.length := by omega
    have hc0 : pr.2.toNat < kps.length := by omega
    have htid0 := List.get?_eq_get hp0
    have hkp0 := List.get?_eq_get hc0
    have hplen : p < refIds.length := (List.get?_eq_some.mp htid).choose
    simp only [processPairs] at h
    rw [processPair_inrange h1 h2 h3 h4 hlen htid0 hkp0] at h
    rcases List.mem_cons.mp hmem with hEq | hmem'
    · have hpr1 : pr.1 = (p : Int) := by rw [← hEq]
      have hpr2 : pr.2 = (c : Int) := by rw [← hEq]
      have hptn : pr.1.toNat = p := by omega
      have hctn : pr.2.toNat = c := by omega
      have hgid : refIds.get ⟨pr.1.toNat, hp0⟩ = tid := by
        have h1' : refIds.get? pr.1.toNat = some tid := by rw [hptn]; exact htid
        exact Option.some.inj (htid0.symm.trans h1')
      have hkpv : kps.get ⟨pr.2.toNat, hc0⟩ = kp := by
        have h2' : kps.get? pr.2.toNat = some kp := by rw [hctn]; exact hkp
        exact Option.some.inj (hkp0.symm.trans h2')
      have hrest : ∀ q ∈ rest, refIds.get? q.1.toNat ≠ some tid := by
        intro q hq
        have hq1 := (hall q (List.mem_cons_of_mem _ hq)).1
        have hq2 := (hall q (List.mem_cons_of_mem _ hq)).2.1
        have hqfst : q.1 ∈ rest.map Prod.fst := List.mem_map_of_mem _ hq
        have hne1 : pr.1 ∉ rest.map Prod.fst := (List.nodup_cons.mp hnd1).1
        have hqp : q.1.toNat ≠ p := by
          intro hcon
          apply hne1
          rw [hpr1, show (p : Int) = q.1 by omega]
          exact hqfst
        exact nodup_get?_ne hndref hplen (by omega) (Ne.symm hqp) htid
      rw [pp_inrange_track_other (fun q hq => hall q (List.mem_cons_of_mem _ hq))
          (by simpa using hlen) h hrest]
      rw [hgid, ht, hkpv]
      exact dictGet_set_self _ _ _
    · have hne : refIds.get ⟨pr.1.toNat, hp0⟩ ≠ tid := by
        have hpfst : (p : Int) ∈ rest.map Prod.fst := by
          have := List.mem_map_of_mem Prod.fst hmem'
          simpa using this
        have hne1 : pr.1 ∉ rest.map Prod.fst := (List.nodup_cons.mp hnd1).1
        have hptnp : pr.1.toNat ≠ p := by
          intro hcon
          apply hne1
          rw [show pr.1 = (p : Int) by omega]
          exact hpfst
        intro hcon
        exact nodup_get?_ne hndref hp0 hplen hptnp (by rw [htid0, hcon]) htid
      have ht2 : dictGet (match dictGet tracks (refIds.get ⟨pr.1.toNat, hp0⟩) with
          | none => tracks
          | some t0 => dictSet tracks (refIds.get ⟨pr.1.toNat, hp0⟩)
              { t0 with age := t0.age + 1, last_frame := fid,
                        positions := t0.positions ++ [kps.get ⟨pr.2.toNat, hc0⟩] }) tid
          = some t := by
        cases hd : dictGet tracks (refIds.get ⟨pr.1.toNat, hp0⟩)
        · exact ht
        · rw [dictGet_set_ne _ _ _ _ hne]
          exact ht
      exact ih (fun q hq => hall q (List.mem_cons_of_mem _ hq)) (by simpa using hlen)
        (List.nodup_cons.mp hnd1).2 hndref h hmem' htid ht2 hkp

/-- C4: reconciliation with fully in-range correspondences (the spec's
caller contract: indices valid, no duplicate `prev_index` or `cur_index`,
reference list duplicate-free).  For every pair `(p, c)`: slot `c` of the
new id array receives `reference_ids[p]`, that track's age grows by
exactly 1, its `last_frame` becomes `frame_id`, the detection's position
is appended to its `positions`, and afterwards `active_track_ids` is the
sentinel-free filtering of the new `ref_track_ids` in order. -/
theorem reconcile_valid_pair_continues_track
    {st : TrackManager} {lR lC : List Int} {kps : List Pos} {fid : Int}
    {p c : Nat} {tid : Int} {t : Track} {kp : Pos}
    (hinv : TMInv st) (hndref : st.ref_track_ids.Nodup)
    (hlR : lR ≠ []) (hlC : lC ≠ [])
    (hall : ∀ pr ∈ lR.zip lC, 0 ≤ pr.1 ∧ pr.1 < (st.ref_track_ids.length : Int)
              ∧ 0 ≤ pr.2 ∧ pr.2 < (kps.length : Int))
    (hnd1 : ((lR.zip lC).map Prod.fst).Nodup)
    (hnd2 : ((lR.zip lC).map Prod.snd).Nodup)
    (hmem : ((p : Int), (c : Int)) ∈ lR.zip lC)
    (htid : st.ref_track_ids.get? p = some tid)
    (ht : dictGet st.tracks tid = some t)
    (hkp : kps.get? c = some kp) :
    ∃ st', update st (some lR) (some lC) kps fid = some st'
      ∧ st'.ref_track_ids.get? c = some tid
      ∧ dictGet st'.tracks tid
          = some { t with age := t.age + 1, last_frame := fid,
                          positions := t.positions ++ [kp] }
      ∧ st'.active_track_ids = st'.ref_track_ids.filter (fun x => x != -1) := by
  have hclen : c < kps.length := (List.get?_eq_some.mp hkp).choose
  have hplen : p < st.ref_track_ids.length := (List.get?_eq_some.mp htid).choose
  have hkne : kps ≠ [] := by
    intro hnil
    rw [hnil] at hclen
    simp at hclen
  have hrefe : st.ref_track_ids.isEmpty = false := by
    cases hr : st.ref_track_ids with
    | nil => rw [hr] at hplen; simp at hplen
    | cons a l => rfl
  have e1 : lR.isEmpty = false := by
    cases lR with
    | nil => exact absurd rfl hlR
    | cons a l => rfl
  have e2 : lC.isEmpty = false := by
    cases lC with
    | nil => exact absurd rfl hlC
    | cons a l => rfl
  have hb : bootstrapCond st (some lR) (some lC) = false := by
    simp [bootstrapCond, hrefe, e1, e2]
  have hlen0 : (List.replicate kps.length (-1 : Int)).length = kps.length := by simp
  obtain ⟨r, hpp⟩ := @pp_inrange_some st.ref_track_ids kps fid (lR.zip lC) st.tracks
    (List.replicate kps.length (-1 : Int)) hall hlen0
  have hbounds := mem_range_keys hinv.1 (mem_keys_of_dictGet ht)
  have hslot : r.2.get? c = some tid := pp_inrange_slot_hit hall hlen0 hnd2 hpp hmem htid
  have hrlen : r.2.length = kps.length := by
    rw [pp_len hpp, hlen0]
  have hzip : (r.2.zip kps).get? c = some (tid, kp) := get?_zip_of_get? hslot hkp
  have htidne : tid ≠ -1 := by
    have := hbounds.1
    omega
  have hids : (assignNewLoop fid r.1 st.next_track_id (r.2.zip kps)).2.2.get? c
      = some tid := anl_ids_get fid _ r.1 st.next_track_id c tid kp hzip htidne
  have hmemnew : tid ∈ (assignNewLoop fid r.1 st.next_track_id (r.2.zip kps)).2.2 :=
    List.get?_mem hids
  have htrack := pp_inrange_track_hit hall hlen0 hnd1 hndref hpp hmem htid ht hkp
  refine ⟨_, update_reconcile_some hb hkne hpp, hids, ?_, rfl⟩
  show dictGet (retireLost _ _ _) tid = _
  rw [rl_get, if_neg (by rintro ⟨_, hnot, _⟩; exact hnot hmemnew),
      anl_get_old fid _ r.1 st.next_track_id tid hbounds.2]
  exact htrack

/-- Witness for C4 at the spec's continuation example: previous reference
ids `[5, 7]`, two detections, the swap correspondences `(0, 1)` and
`(1, 0)`, frame 10; the pair `(0, 1)` puts id `5` in slot 1 with age 2 and
`last_frame = 10`. -/
theorem reconcile_valid_pair_continues_track_witness :
    ∃ st', update sampleTM8 (some [0, 1]) (some [1, 0])
        [((20 : Int), (20 : Int)), ((21 : Int), (21 : Int))] 10 = some st'
      ∧ st'.ref_track_ids.get? 1 = some 5
      ∧ dictGet st'.tracks 5
          = some { age := 2, first_frame := 9, last_frame := 10,
                   positions := [(5, 5), (21, 21)], is_active := true }
      ∧ st'.active_track_ids = st'.ref_track_ids.filter (fun x => x != -1) :=
  @reconcile_valid_pair_continues_track sampleTM8 [0, 1] [1, 0]
    [((20 : Int), (20 : Int)), ((21 : Int), (21 : Int))] 10 0 1 5
    ⟨1, 9, 9, [(5, 5)], true⟩ ((21 : Int), (21 : Int))
    (by decide) (by decide) (by decide) (by decide) (by decide) (by decide)
    (by decide) (by decide) (by decide) (by decide) (by decide)
